import Mathlib

/-!
# Verification of the fast_vision document-extraction pipeline

Shallow embedding, in Lean 4, of the core of the `fast_vision` repository
(PDF/DOCX → Layout JSON pipeline): geometry clustering (chars → words →
lines → blocks), table de-duplication, the heuristic classifier, the
block/tag matcher, the style normalizer, page-range parsing, DOCX
pagination and the schema assembler.  Coordinates are embedded as exact
rationals (`ℚ`); Python dictionaries become structures with `Option`
fields where the source uses `dict.get` with a default; the random UUID
generator becomes an explicit supply `ℕ → String`.

Each claim about the natural-language specification is settled by a
theorem at the end of the file.
-/

namespace FastVision

attribute [local semireducible] Rat.mul Rat.add Rat.sub Rat.inv

/-! ## Python primitives

Helpers mirroring the Python built-ins the source relies on:
`round` (banker's rounding, embedded over `ℚ`), `str.strip`,
`int(...)` parsing, `str.split`, `str.isdigit`.
-/

/-- Floor of a rational, in a form the kernel evaluates
(equal to Mathlib's `⌊·⌋`, see `qfloor_eq` below). -/
def qfloor (q : ℚ) : ℤ := q.num / (q.den : ℤ)

/-- Banker's rounding of a rational to the nearest integer
(ties go to the even integer), as Python's `round` does. -/
def roundHalfEven (q : ℚ) : ℤ :=
  if q - qfloor q = 1/2 then (if qfloor q % 2 = 0 then qfloor q else qfloor q + 1)
  else qfloor (q + 1/2)

/-- Python `round(q, d)`: round to `d` decimal places, ties to even. -/
def pyRound (d : ℕ) (q : ℚ) : ℚ :=
  (roundHalfEven (q * 10 ^ d) : ℚ) / 10 ^ d

/-- Characters Python's `str.strip()` removes by default. -/
def isPySpace (c : Char) : Bool :=
  c = ' ' ∨ c = '\t' ∨ c = '\n' ∨ c = '\r' ∨ c = '\x0b' ∨ c = '\x0c'

/-- Python `str.strip()`: drop leading and trailing whitespace. -/
def pyStrip (s : String) : String :=
  ⟨(s.toList.dropWhile isPySpace).reverse.dropWhile isPySpace |>.reverse⟩

/-- Python `str.lstrip()`. -/
def pyLstrip (s : String) : String :=
  ⟨s.toList.dropWhile isPySpace⟩

/-- Digit-run parser for Python `int()`: first char must be a digit,
afterwards digits with single underscores allowed between digits. -/
def pyDigitsGo (acc : ℕ) : List Char → Option ℕ
  | [] => some acc
  | '_' :: d :: rest =>
      if d.isDigit then pyDigitsGo (acc * 10 + (d.toNat - '0'.toNat)) rest else none
  | '_' :: [] => none
  | d :: rest =>
      if d.isDigit then pyDigitsGo (acc * 10 + (d.toNat - '0'.toNat)) rest else none

/-- Parse a nonempty digit run (with Python's underscore rules). -/
def pyDigits : List Char → Option ℕ
  | [] => none
  | d :: rest =>
      if d.isDigit then pyDigitsGo (d.toNat - '0'.toNat) rest else none

/-- Python `int(s)`: strip whitespace, optional sign, ASCII digit run
(with underscore grouping); `none` models a raised `ValueError`. -/
def pyInt (s : String) : Option ℤ :=
  match (pyStrip s).toList with
  | [] => none
  | c :: rest =>
      if c = '+' then (pyDigits rest).map (fun n => (n : ℤ))
      else if c = '-' then (pyDigits rest).map (fun n => -(n : ℤ))
      else (pyDigits (c :: rest)).map (fun n => (n : ℤ))

/-- Python `str.isdigit()` restricted to ASCII: nonempty and all digits. -/
def pyIsDigit (s : String) : Bool :=
  !s.toList.isEmpty && s.toList.all Char.isDigit

/-- Split a string at the first occurrence of `sep`
(Python `s.split(sep, 1)` when `sep ∈ s`). -/
def splitOnceAt (sep : Char) (s : String) : String × String :=
  let cs := s.toList
  let i := cs.takeWhile (· ≠ sep) |>.length
  (⟨cs.take i⟩, ⟨cs.drop (i + 1)⟩)

/-- Split a character list at every occurrence of `sep`
(Python `s.split(sep)`: `""` splits to `[""]`, `","` to `["", ""]`). -/
def pySplitChar (sep : Char) : List Char → List (List Char)
  | [] => [[]]
  | c :: rest =>
      match pySplitChar sep rest with
      | [] => [[]]
      | h :: t => if c = sep then [] :: h :: t else (c :: h) :: t

/-- Python `s.split(sep)` for a one-character separator. -/
def pySplit (sep : Char) (s : String) : List String :=
  (pySplitChar sep s.toList).map (fun l => ⟨l⟩)

/-! ## Page-range parsing (`pipeline._parse_page_range`) -/

/-- The set of 1-indexed pages one comma-separated part of a page-range
string contributes; embeds the body of the loop in
`pipeline._parse_page_range` (a `N` or `A-B` part, `int()` failures
swallowed). -/
def partPages (total : ℕ) (partRaw : String) : Finset ℕ :=
  let part := pyStrip partRaw
  if part.toList.contains '-' then
    let (a, b) := splitOnceAt '-' part
    match pyInt a, pyInt b with
    | some ia, some ib =>
        (Finset.Icc 1 total).filter (fun p => ia ≤ (p : ℤ) ∧ (p : ℤ) ≤ ib)
    | _, _ => ∅
  else
    match pyInt part with
    | some ip => if 1 ≤ ip ∧ ip ≤ (total : ℤ) then {ip.toNat} else ∅
    | none => ∅

/-- `pipeline._parse_page_range`: parse a comma list of `N` / `A-B`
parts into a set of 1-indexed page numbers; an empty result falls back
to all pages `{1..total}`. -/
def parsePageRange (pageRange : String) (total : ℕ) : Finset ℕ :=
  let result := (pySplit ',' pageRange).foldl (fun acc part => acc ∪ partPages total part) ∅
  if result = ∅ then Finset.Icc 1 total else result

/-! ## Dictionary shapes

The Python pipeline passes plain `dict`s between stages.  Each becomes a
structure; a field read with `dict.get(key, default)` in the source is an
`Option`, a field read with `dict[key]` is plain. -/

/-- A char dict from `char_extractor`:
`{text, x0, y0, x1, y1, fontname, size, color}`. -/
structure CharD where
  text : String
  x0 : ℚ
  y0 : ℚ
  x1 : ℚ
  y1 : ℚ
  fontname : String
  size : ℚ
  color : String
deriving DecidableEq, Repr

/-- A word dict from `word_builder._merge_chars`
(same keys as a char dict). -/
structure WordD where
  text : String
  x0 : ℚ
  y0 : ℚ
  x1 : ℚ
  y1 : ℚ
  fontname : String
  size : ℚ
  color : String
deriving DecidableEq, Repr

/-- A line dict from `line_builder._merge_words`. -/
structure LineD where
  text : String
  x0 : ℚ
  y0 : ℚ
  x1 : ℚ
  y1 : ℚ
  fontname : String
  size : ℚ
  color : String
  words : List WordD
deriving DecidableEq, Repr

/-- Raw rhetoric payload attached by the vision tagger (passed through
the matcher opaquely, coerced to enums by the assembler). -/
structure RhetoricD where
  tone : Option String
  voice : Option String
  modality : Option String
  tense : Option String
  domain : Option String
deriving DecidableEq, Repr

/-- Raw rhetoric-features payload (four optional floats). -/
structure RhetoricFeaturesD where
  avg_sentence_length : Option ℚ
  modal_density : Option ℚ
  passive_ratio : Option ℚ
  legal_term_density : Option ℚ
deriving DecidableEq, Repr

/-- A block dict as it flows from `block_builder` (or `docx_extractor`)
through dedup, matching and style normalization into the assembler.
The geometry builder sets `id`/`text`/`fontname`/`size`/`color`/`words`;
classification later fills `block_type`/`role`/`reading_order`; the
style normalizer fills `style_id`.  The unused `lines`/`alignment`
entries of the source dicts are not modelled. -/
structure BlockD where
  id : Option String
  text : Option String
  x0 : ℚ
  y0 : ℚ
  x1 : ℚ
  y1 : ℚ
  fontname : Option String
  size : Option ℚ
  color : Option String
  words : List WordD
  block_type : Option String
  role : Option String
  reading_order : Option ℤ
  rhetoric : Option RhetoricD
  rhetoric_features : Option RhetoricFeaturesD
  style_id : Option String
deriving DecidableEq, Repr

/-- A vision-tagger tag dict (`block_index`, classification fields and a
`text` snippet used by the fuzzy matcher). -/
structure TagD where
  block_index : Option ℤ
  block_type : Option String
  role : Option String
  reading_order : Option ℤ
  text : Option String
  rhetoric : Option RhetoricD
  rhetoric_features : Option RhetoricFeaturesD
deriving DecidableEq, Repr

/-- A table-cell dict from `table_extractor` / `docx_extractor`. -/
structure CellD where
  row : ℕ
  col : ℕ
  row_span : Option ℕ
  col_span : Option ℕ
  text : Option String
  bbox : List ℚ
deriving DecidableEq, Repr

/-- A table dict from `table_extractor.extract_tables`. -/
structure TableD where
  id : String
  page : ℕ
  rows : ℕ
  cols : ℕ
  bbox : List ℚ
  cells : List CellD
  block_type : String
deriving DecidableEq, Repr

/-- A page dict (`page_number`, dimensions, raw chars). -/
structure PageData where
  page_number : ℕ
  width : ℚ
  height : ℚ
  chars : List CharD
deriving DecidableEq, Repr

/-! ## List helpers shared by the geometry builders -/

/-- Minimum of `f` over a run of items (runs are nonempty when used). -/
def minOver {α : Type} (f : α → ℚ) : List α → ℚ
  | [] => 0
  | x :: xs => xs.foldl (fun m y => min m (f y)) (f x)

/-- Maximum of `f` over a run of items. -/
def maxOver {α : Type} (f : α → ℚ) : List α → ℚ
  | [] => 0
  | x :: xs => xs.foldl (fun m y => max m (f y)) (f x)

/-- Distinct elements in order of first occurrence (skipping the ones
already seen) — the iteration order of a Python `dict` built by
counting. -/
def pyDedupAcc (seen : List String) : List String → List String
  | [] => []
  | x :: xs => if seen.contains x then pyDedupAcc seen xs
               else x :: pyDedupAcc (seen ++ [x]) xs

/-- Distinct elements in order of first occurrence. -/
def pyDedup (l : List String) : List String := pyDedupAcc [] l

/-- Python `max(font_counts, key=font_counts.get)`: among the distinct
fontnames in first-occurrence order, the first one attaining the
maximal count. -/
def dominantMode (fonts : List String) : String :=
  match pyDedup fonts with
  | [] => ""
  | f :: fs => fs.foldl (fun best g => if fonts.count g > fonts.count best then g else best) f

/-- Stable sort by an integer-pair key: Lean counterpart of Python's
stable `sorted(..., key=...)` for a lexicographic two-part key. -/
def pySortByKey {α : Type} (key : α → ℚ × ℚ) (l : List α) : List α :=
  l.insertionSort (fun a b =>
    (key a).1 < (key b).1 ∨ ((key a).1 = (key b).1 ∧ (key a).2 ≤ (key b).2))

/-- Stable sort by a single rational key. -/
def pySortByQ {α : Type} (key : α → ℚ) (l : List α) : List α :=
  l.insertionSort (fun a b => key a ≤ key b)

/-! ## Word builder (`geometry/word_builder.py`) -/

/-- `word_builder.GAP_FACTOR`. -/
def GAP_FACTOR : ℚ := 35/100

/-- The chars of one page sorted by `(round(y0, 1), x0)` —
`word_builder.build_words` step 1. -/
def sortChars (chars : List CharD) : List CharD :=
  pySortByKey (fun c => (pyRound 1 c.y0, c.x0)) chars

/-- Same-baseline test between the previous char of the current word and
the next char: vertical overlap over min height exceeds 1/2. -/
def sameLine (prev c : CharD) : Bool :=
  let y_overlap := min prev.y1 c.y1 - max prev.y0 c.y0
  let min_height := min (prev.y1 - prev.y0) (c.y1 - c.y0)
  decide (y_overlap > 0) && decide (y_overlap / max min_height (1/10) > 1/2)

/-- Does char `c` continue the current word ending in `prev`?
(same line and horizontal gap within the threshold). -/
def joinsWord (prev c : CharD) : Bool :=
  sameLine prev c &&
    (let gap := c.x0 - prev.x1
     let avg_width := (prev.x1 - prev.x0 + (c.x1 - c.x0)) / 2
     decide (gap ≤ max (avg_width * GAP_FACTOR) (prev.size * (1/4))))

/-- The char-run grouping loop of `build_words`; `cur` is the current
word run in reverse order (its head is the last char appended). -/
def wordRunsGo (cur : List CharD) : List CharD → List (List CharD)
  | [] => [cur.reverse]
  | c :: cs =>
      match cur with
      | [] => wordRunsGo [c] cs
      | p :: _ => if joinsWord p c then wordRunsGo (c :: cur) cs
                  else cur.reverse :: wordRunsGo [c] cs

/-- Partition the sorted chars into word runs. -/
def wordRuns : List CharD → List (List CharD)
  | [] => []
  | c :: cs => wordRunsGo [c] cs

/-- `word_builder._merge_chars`: merge a run of chars into one word. -/
def mergeChars (run : List CharD) : WordD :=
  { text := (run.map (·.text)).foldl (· ++ ·) ""
    x0 := minOver (·.x0) run
    y0 := minOver (·.y0) run
    x1 := maxOver (·.x1) run
    y1 := maxOver (·.y1) run
    fontname := dominantMode (run.map (·.fontname))
    size := pyRound 2 ((run.map (·.size)).sum / run.length)
    color := (run.head?.map (·.color)).getD "" }

/-- `word_builder.build_words`: cluster one page's chars into words. -/
def build_words (chars : List CharD) : List WordD :=
  (wordRuns (sortChars chars)).map mergeChars

/-! ## Line builder (`geometry/line_builder.py`) -/

/-- Does word `w` join the line whose first word is `first`?
(vertical-midpoint distance within `max(0.6 · size, 3)`). -/
def joinsLine (first w : WordD) : Bool :=
  let ref_mid_y := (first.y0 + first.y1) / 2
  let w_mid_y := (w.y0 + w.y1) / 2
  decide (|w_mid_y - ref_mid_y| ≤ max (first.size * (6/10)) 3)

/-- The word-grouping loop of `build_lines`; `first` is the first word of
the current line, `cur` the current line in reverse order. -/
def lineRunsGo (first : WordD) (cur : List WordD) : List WordD → List (List WordD)
  | [] => [cur.reverse]
  | w :: ws =>
      if joinsLine first w then lineRunsGo first (w :: cur) ws
      else cur.reverse :: lineRunsGo w [w] ws

/-- Partition sorted words into line runs. -/
def lineRuns : List WordD → List (List WordD)
  | [] => []
  | w :: ws => lineRunsGo w [w] ws

/-- `line_builder._merge_words`: merge a line's words (already sorted by
`x0`) into one line dict; text is space-joined. -/
def mergeWords (ws : List WordD) : LineD :=
  { text := String.intercalate " " (ws.map (·.text))
    x0 := minOver (·.x0) ws
    y0 := minOver (·.y0) ws
    x1 := maxOver (·.x1) ws
    y1 := maxOver (·.y1) ws
    fontname := dominantMode (ws.map (·.fontname))
    size := pyRound 2 ((ws.map (·.size)).sum / ws.length)
    color := (ws.head?.map (·.color)).getD ""
    words := ws }

/-- `line_builder.build_lines`: sort words by `(y0, x0)`, group into
lines, sort each line left-to-right, merge. -/
def build_lines (words : List WordD) : List LineD :=
  let sorted_words := pySortByKey (fun w => (w.y0, w.x0)) words
  (lineRuns sorted_words).map (fun g => mergeWords (pySortByQ (·.x0) g))

/-! ## Block builder (`geometry/block_builder.py`) -/

/-- `block_builder.LINE_GAP_FACTOR`. -/
def LINE_GAP_FACTOR : ℚ := 3/2

/-- `block_builder.X_SHIFT_TOLERANCE` (pt). -/
def X_SHIFT_TOLERANCE : ℚ := 40

/-- The part of a character list before the first occurrence of the
pattern `pat` (the whole list when `pat` does not occur) —
Python `name.split(suffix)[0]`. -/
def cutBefore (pat : List Char) : List Char → List Char
  | [] => []
  | c :: rest => if pat.isPrefixOf (c :: rest) then [] else c :: cutBefore pat rest

/-- `block_builder._font_family`: strip style suffixes from a fontname.
Python `name.split(suffix)[0]` keeps the part before the first
occurrence of the suffix. -/
def font_family (fontname : String) : String :=
  let cut := fun (name : String) (suffix : String) =>
    (⟨cutBefore suffix.toList name.toList⟩ : String)
  let name := ["-Bold", "-Italic", "-BoldItalic", ",Bold", ",Italic",
               "-Regular", ",Regular", "+"].foldl cut fontname
  pyStrip name

/-- Does line `ln` continue the block whose last line is `prev`?
(small vertical gap, small `x0` shift, same stripped font family). -/
def joinsBlock (prev ln : LineD) : Bool :=
  let gap := ln.y0 - prev.y1
  let threshold := max (prev.size * LINE_GAP_FACTOR) 4
  let x_shift := |ln.x0 - prev.x0|
  decide (gap ≤ threshold) && decide (x_shift ≤ X_SHIFT_TOLERANCE) &&
    decide (font_family ln.fontname = font_family prev.fontname)

/-- The line-grouping loop of `build_blocks`; `cur` is the current block
in reverse order (head = last line appended). -/
def blockRunsGo (cur : List LineD) : List LineD → List (List LineD)
  | [] => [cur.reverse]
  | ln :: lns =>
      match cur with
      | [] => blockRunsGo [ln] lns
      | p :: _ => if joinsBlock p ln then blockRunsGo (ln :: cur) lns
                  else cur.reverse :: blockRunsGo [ln] lns

/-- Partition sorted lines into block runs. -/
def blockRuns : List LineD → List (List LineD)
  | [] => []
  | ln :: lns => blockRunsGo [ln] lns

/-- `block_builder._merge_lines`: merge a group of lines into a block
dict; the source draws a fresh `uuid4` for the id, which the embedding
takes as the explicit argument `bid`. -/
def mergeLines (bid : String) (lns : List LineD) : BlockD :=
  { id := some bid
    text := some (String.intercalate "\n" (lns.map (·.text)))
    x0 := minOver (·.x0) lns
    y0 := minOver (·.y0) lns
    x1 := maxOver (·.x1) lns
    y1 := maxOver (·.y1) lns
    fontname := some (dominantMode (lns.map (·.fontname)))
    size := some (pyRound 2 ((lns.map (·.size)).sum / lns.length))
    color := some ((lns.head?.map (·.color)).getD "")
    words := (lns.map (·.words)).flatten
    block_type := none
    role := none
    reading_order := none
    rhetoric := none
    rhetoric_features := none
    style_id := none }

/-- `block_builder.build_blocks`: sort lines by `y0`, group consecutive
lines into paragraphs and merge each group.  `fresh k0, fresh (k0+1), …`
supplies the `uuid4` ids in creation order; returns the blocks and the
next unused counter. -/
def build_blocks (fresh : ℕ → String) (k0 : ℕ) (lns : List LineD) :
    List BlockD × ℕ :=
  let groups := blockRuns (pySortByQ (·.y0) lns)
  (groups.enum.map (fun gi => mergeLines (fresh (k0 + gi.1)) gi.2),
   k0 + groups.length)

/-! ## Table de-duplication (`geometry/table_extractor.py`) -/

/-- Read the four components of a bbox list `[x0, y0, x1, y1]`. -/
def bbox4 (l : List ℚ) : ℚ × ℚ × ℚ × ℚ :=
  ((l.getD 0 0), (l.getD 1 0), (l.getD 2 0), (l.getD 3 0))

/-- The overlap test of `deduplicate_blocks_from_tables` for one block
against one table: intersection area over `max(block area, 0.01)`
exceeds the threshold. -/
def blockOverlapsTable (overlap_threshold : ℚ) (block : BlockD) (table : TableD) : Bool :=
  let block_area := max ((block.x1 - block.x0) * (block.y1 - block.y0)) (1/100)
  let tb := bbox4 table.bbox
  let ix0 := max block.x0 tb.1
  let iy0 := max block.y0 tb.2.1
  let ix1 := min block.x1 tb.2.2.1
  let iy1 := min block.y1 tb.2.2.2
  let inter := max 0 (ix1 - ix0) * max 0 (iy1 - iy0)
  decide (inter / block_area > overlap_threshold)

/-- `table_extractor.deduplicate_blocks_from_tables`: drop every text
block that significantly overlaps some detected table. -/
def deduplicate_blocks_from_tables (text_blocks : List BlockD) (tables : List TableD)
    (overlap_threshold : ℚ := 1/2) : List BlockD :=
  if tables.isEmpty then text_blocks
  else text_blocks.filter (fun b => !(tables.any (blockOverlapsTable overlap_threshold b)))

/-! ## Heuristic classifier (`pipeline._guess_block_type` / `_guess_role`) -/

/-- ASCII lower-casing of a string (Python `str.lower` on the fontnames
appearing here). -/
def pyLower (s : String) : String := ⟨s.toList.map Char.toLower⟩

/-- Python `needle in haystack` on strings (substring containment). -/
def strContains (haystack needle : String) : Bool :=
  haystack.toList.tails.any (fun t => needle.toList.isPrefixOf t)

/-- Python `str.split()` (no argument): maximal runs of non-whitespace. -/
def pySplitWsChars : List Char → List (List Char)
  | [] => []
  | c :: cs =>
      if isPySpace c then pySplitWsChars cs
      else
        match pySplitWsChars cs with
        | [] => [[c]]
        | h :: t =>
            match cs with
            | [] => [[c]]
            | c2 :: _ => if isPySpace c2 then [c] :: h :: t else (c :: h) :: t

/-- Number of whitespace-separated words (`len(text.split())`). -/
def pyWordCount (s : String) : ℕ := (pySplitWsChars s.toList).length

/-- `pipeline._guess_block_type`: heuristic block type from font size,
fontname and text shape (the no-Vision-API path). -/
def guess_block_type (block : BlockD) : String :=
  let size := block.size.getD 0
  let fontname := pyLower (block.fontname.getD "")
  let text := block.text.getD ""
  if decide (size ≥ 14) || (strContains fontname "bold" && decide (size ≥ 12)) then "heading"
  else if decide (pyWordCount text ≤ 3) && pyIsDigit (pyStrip text) then "page_number"
  else if (match (pyLstrip text).toList.head? with
           | some c => ['•', '-', '–', '▪', '◦'].contains c
           | none => false) ||
          (decide (text.length > 2) &&
            (match text.toList with
             | c0 :: c1 :: _ => c0.isDigit && (c1 = '.' || c1 = ')')
             | _ => false)) then "list_item"
  else "paragraph"

/-- `pipeline._guess_role`: role from block type via the fixed map. -/
def guess_role (block : BlockD) : String :=
  let bt := block.block_type.getD "paragraph"
  if bt = "heading" then "section_title"
  else if bt = "paragraph" then "paragraph"
  else if bt = "list_item" then "list_item"
  else if bt = "table" then "table"
  else if bt = "figure" then "figure"
  else if bt = "caption" then "caption"
  else if bt = "header" then "header"
  else if bt = "footer" then "footer"
  else if bt = "page_number" then "footer"
  else if bt = "code_block" then "paragraph"
  else "paragraph"

/-! ## Style normalizer (`styles/style_normalizer.py`)

The SHA-256 based `_hash_style` is abstracted as an explicit hash
parameter `hash : StyleD → String` (the source hashes the style's
`"{family}|{size}|{weight}|{italic}|{color}"` key and keeps 12 hex
chars); every property proved below holds for an arbitrary hash. -/

/-- The style dict built per block by `normalize_styles`. -/
structure StyleD where
  font_family : String
  size : ℚ
  weight : String
  italic : Bool
  underline : Bool
  color : String
  align : String
deriving DecidableEq, Repr

/-- `style_normalizer._clean_font_name`: drop an embedded-font prefix
(`"ABCDEF+Times" → "Times"`). -/
def clean_font_name (fontname : String) : String :=
  if fontname.toList.contains '+' then (splitOnceAt '+' fontname).2 else fontname

/-- The style dict `normalize_styles` derives from one block. -/
def styleOf (block : BlockD) : StyleD :=
  let font := block.fontname.getD "unknown"
  let size := block.size.getD 0
  let color := block.color.getD "#000000"
  let fn_lower := pyLower font
  { font_family := clean_font_name font
    size := pyRound 1 size
    weight := if strContains fn_lower "bold" then "bold" else "normal"
    italic := strContains fn_lower "italic" ∨ strContains fn_lower "oblique"
    underline := false
    color := color
    align := "left" }

/-- The loop body of `normalize_styles`: assign the hashed `style_id`
to the block; record the style under that id unless already present. -/
def nsStep (hash : StyleD → String)
    (acc : List BlockD × List (String × StyleD)) (block : BlockD) :
    List BlockD × List (String × StyleD) :=
  let style_obj := styleOf block
  let style_id := hash style_obj
  let blocks' := acc.1 ++ [{ block with style_id := some style_id }]
  let styles' := if (acc.2.map Prod.fst).contains style_id then acc.2
                 else acc.2 ++ [(style_id, style_obj)]
  (blocks', styles')

/-- `style_normalizer.normalize_styles`: assign a `style_id` to every
block and accumulate the id → style table in first-insertion order. -/
def normalize_styles (hash : StyleD → String) (blocks : List BlockD) :
    List BlockD × List (String × StyleD) :=
  blocks.foldl (nsStep hash) ([], [])

/-! ## Text similarity (`difflib.SequenceMatcher.ratio`)

`block_matcher` scores candidate pairs with
`SequenceMatcher(None, a[:200], b[:200]).ratio()`.  The embedding below
implements the Ratcliff–Obershelp matching difflib documents: repeatedly
take the longest matching block (earliest in `a`, then earliest in `b`
among ties), recurse on both sides, and return `2·M / (len a + len b)`.
It is exact for the no-junk regime (`isjunk=None` and second string
shorter than 200 characters, below difflib's autojunk threshold). -/

/-- Length of the common prefix of two character lists. -/
def commonRunLen : List Char → List Char → ℕ
  | a :: as, b :: bs => if a = b then commonRunLen as bs + 1 else 0
  | _, _ => 0

/-- `find_longest_match` over whole lists: the `(i, j, size)` of the
longest matching block, ties resolved to the lowest `i` then lowest `j`
(difflib's documented tie-break). -/
def findLongestMatch (a b : List Char) : ℕ × ℕ × ℕ :=
  (List.range a.length).foldl (fun best i =>
    (List.range b.length).foldl (fun best j =>
      let k := commonRunLen (a.drop i) (b.drop j)
      if k > best.2.2 then (i, j, k) else best) best)
    (0, 0, 0)

/-- Total size `M` of all matching blocks (`get_matching_blocks`),
structurally recursive on a fuel argument so the kernel can evaluate it:
take the longest match, recurse left and right of it.  Each recursive
call strictly shrinks `a.length + b.length`, so any fuel at least that
sum computes the same value (`matchSumF_norm` below). -/
def matchSumF : ℕ → List Char → List Char → ℕ
  | 0, _, _ => 0
  | fuel + 1, a, b =>
      match findLongestMatch a b with
      | (i, j, k) =>
          if k = 0 then 0
          else matchSumF fuel (a.take i) (b.take j) + k +
               matchSumF fuel (a.drop (i + k)) (b.drop (j + k))

/-- Total matched size with canonical fuel. -/
def matchSum (a b : List Char) : ℕ := matchSumF (a.length + b.length) a b

/-- `SequenceMatcher(None, a, b).ratio() = 2·M / (len a + len b)`
(defined as 1 on two empty sequences, as in difflib). -/
def ratioQ (a b : List Char) : ℚ :=
  if a.length + b.length = 0 then 1
  else 2 * (matchSum a b : ℚ) / ((a.length : ℚ) + (b.length : ℚ))

/-- The similarity score `_find_best_tag` computes for a block text and
a tag text: the difflib ratio over the first 200 characters of each. -/
def scoreOf (block_text tag_text : String) : ℚ :=
  ratioQ (block_text.toList.take 200) (tag_text.toList.take 200)

/-! ## Block matcher (`merger/block_matcher.py`)

`match_blocks_to_tags` mutates block dicts in place; the embedding
returns the updated list.  The generic versions (`find_best_tagW`,
`fuzzyPassW`, `match_blocks_to_tagsW`) take the similarity function as a
parameter `r`; the source instantiates it with `scoreOf`. -/

/-- `block_matcher._apply_tag`: copy tag fields onto a block. -/
def apply_tag (block : BlockD) (tag : TagD) (fallback_order : ℤ) : BlockD :=
  { block with
    block_type := some (tag.block_type.getD "paragraph")
    role := some (tag.role.getD "paragraph")
    reading_order := some (tag.reading_order.getD fallback_order)
    rhetoric := tag.rhetoric
    rhetoric_features := tag.rhetoric_features }

/-- The three `setdefault` calls giving a block its default
classification (`paragraph`/`paragraph`/positional index). -/
def setDefaults (i : ℤ) (b : BlockD) : BlockD :=
  { b with
    block_type := some (b.block_type.getD "paragraph")
    role := some (b.role.getD "paragraph")
    reading_order := some (b.reading_order.getD i) }

/-- `block_matcher._find_best_tag`, generic in the similarity `r`:
best-scoring tag with nonempty text, strict improvement scan, returned
only when the best score strictly exceeds `0.4`. -/
def find_best_tagW (r : String → String → ℚ) (block : BlockD) (tags : List TagD) :
    Option TagD :=
  let block_text := block.text.getD ""
  if block_text = "" then none
  else
    let best := tags.foldl
      (fun (best : ℚ × Option TagD) tag =>
        let tag_text := tag.text.getD ""
        if tag_text = "" then best
        else
          let score := r block_text tag_text
          if score > best.1 then (score, some tag) else best)
      (0, none)
    if best.1 > 2/5 then best.2 else none

/-- `block_matcher._find_best_tag` with the difflib similarity. -/
def find_best_tag (block : BlockD) (tags : List TagD) : Option TagD :=
  find_best_tagW scoreOf block tags

/-- The fuzzy second pass of `match_blocks_to_tags`: walk the unmatched
`(index, block)` pairs in order, give each its best remaining tag (or
defaults), consuming a won tag (`unmatched_tags.remove`).  Returns the
updated pairs and the tags left over. -/
def fuzzyPassW (r : String → String → ℚ) :
    List (ℕ × BlockD) → List TagD → List (ℕ × BlockD) × List TagD
  | [], tags => ([], tags)
  | (i, b) :: rest, tags =>
      match find_best_tagW r b tags with
      | some t =>
          let res := fuzzyPassW r rest (tags.erase t)
          ((i, apply_tag b t i) :: res.1, res.2)
      | none =>
          let res := fuzzyPassW r rest tags
          ((i, setDefaults i b) :: res.1, res.2)

/-- The decision trace of the fuzzy pass: for each unmatched
`(index, block)` pair, the consumed tag (if one won) or `none`;
`fuzzyPassW` is the `apply_tag`/`setDefaults` image of this trace
(theorem `fuzzyPassW_fst_eq`). -/
def fuzzyDecs (r : String → String → ℚ) :
    List (ℕ × BlockD) → List TagD → List (ℕ × BlockD × Option TagD)
  | [], _ => []
  | (i, b) :: rest, tags =>
      match find_best_tagW r b tags with
      | some t => (i, b, some t) :: fuzzyDecs r rest (tags.erase t)
      | none => (i, b, none) :: fuzzyDecs r rest tags

/-- The tag attached to block position `i` by the index pass:
`index_map[i]`, where later tags with the same `block_index` overwrite
earlier ones. -/
def indexTag (tags : List TagD) (i : ℕ) : Option TagD :=
  (tags.filter (fun t => t.block_index = some (i : ℤ))).getLast?

/-- `block_matcher.match_blocks_to_tags`, generic in the similarity:
empty tags short-circuit to defaults; otherwise the index pass, the
fuzzy pass over index-unmatched blocks and remaining tags (skipped when
either side is empty), and a final defaults pass. -/
def match_blocks_to_tagsW (r : String → String → ℚ)
    (blocks : List BlockD) (tags : List TagD) : List BlockD :=
  if tags.isEmpty then
    blocks.enum.map (fun ib => setDefaults (ib.1 : ℤ) ib.2)
  else
    let afterIndex := blocks.enum.map (fun ib =>
      match indexTag tags ib.1 with
      | some t => apply_tag ib.2 t (ib.1 : ℤ)
      | none => ib.2)
    let matched := (List.range blocks.length).filter (fun i => (indexTag tags i).isSome)
    let unmatched_blocks := afterIndex.enum.filter (fun ib => (indexTag tags ib.1).isNone)
    let unmatched_tags := tags.filter (fun t =>
      match t.block_index with
      | some k => !(matched.any (fun m => (m : ℤ) = k))
      | none => true)
    let fuzzyRes :=
      if !unmatched_blocks.isEmpty && !unmatched_tags.isEmpty then
        (fuzzyPassW r unmatched_blocks unmatched_tags).1
      else []
    let merged := afterIndex.enum.map (fun ib => ((fuzzyRes.lookup ib.1).getD ib.2))
    merged.enum.map (fun ib => setDefaults (ib.1 : ℤ) ib.2)

/-- `block_matcher.match_blocks_to_tags` with the difflib similarity. -/
def match_blocks_to_tags (blocks : List BlockD) (tags : List TagD) : List BlockD :=
  match_blocks_to_tagsW scoreOf blocks tags

/-! ## Schema v3.0 model (`fast_vision/schema.py`)

Enums are embedded as their string values together with the lists of
valid values; the always-`None` `parent`/`children` block fields are not
modelled. -/

/-- `BlockType` enum values. -/
def VALID_TYPES : List String :=
  ["heading", "paragraph", "list_item", "table", "figure", "caption",
   "header", "footer", "page_number", "code_block"]

/-- `RoleType` enum values. -/
def VALID_ROLES : List String :=
  ["title", "section_title", "subsection_title", "paragraph", "list_item",
   "table", "figure", "caption", "header", "footer"]

/-- `ToneType` enum values. -/
def TONE_VALUES : List String :=
  ["formal", "neutral", "conversational", "legal", "compliance", "academic"]

/-- `VoiceType` enum values. -/
def VOICE_VALUES : List String := ["active", "passive", "mixed"]

/-- `ModalityType` enum values. -/
def MODALITY_VALUES : List String := ["mandatory", "advisory", "descriptive"]

/-- `TenseType` enum values. -/
def TENSE_VALUES : List String := ["present", "past", "future", "mixed"]

/-- `DomainType` enum values. -/
def DOMAIN_VALUES : List String := ["legal", "banking", "technical", "general"]

/-- `schema.Rhetoric` (validated). -/
structure Rhetoric where
  tone : Option String
  voice : Option String
  modality : Option String
  tense : Option String
  domain : Option String
deriving DecidableEq, Repr

/-- `schema.RhetoricFeatures` (validated). -/
structure RhetoricFeatures where
  avg_sentence_length : Option ℚ
  modal_density : Option ℚ
  passive_ratio : Option ℚ
  legal_term_density : Option ℚ
deriving DecidableEq, Repr

/-- `schema.Style` (validated). -/
structure Style where
  font_family : Option String
  size : Option ℚ
  weight : Option String
  italic : Bool
  underline : Bool
  color : Option String
  align : Option String
deriving DecidableEq, Repr

/-- `schema.Page`. -/
structure Page where
  page_number : ℕ
  width : ℚ
  height : ℚ
  rotation : ℤ
  unit : String
deriving DecidableEq, Repr

/-- `schema.Block` (validated output block). -/
structure Block where
  id : String
  type : String
  role : Option String
  page : ℕ
  bbox : List ℚ
  bbox_norm : List ℚ
  reading_order : ℤ
  z_index : ℤ
  text : Option String
  style_id : Option String
  html : Option String
  html_template : Option String
  rhetoric : Option Rhetoric
  rhetoric_features : Option RhetoricFeatures
deriving DecidableEq, Repr

/-- `schema.Span`. -/
structure Span where
  id : String
  block_id : String
  text : String
  bbox : List ℚ
  bbox_norm : List ℚ
  style_id : Option String
deriving DecidableEq, Repr

/-- `schema.Token`. -/
structure Token where
  text : String
  bbox : List ℚ
  bbox_norm : List ℚ
  block_id : String
  span_id : String
deriving DecidableEq, Repr

/-- `schema.TableCell`. -/
structure TableCell where
  row : ℕ
  col : ℕ
  row_span : ℕ
  col_span : ℕ
  text : String
  bbox : List ℚ
  bbox_norm : List ℚ
deriving DecidableEq, Repr

/-- `schema.Table`. -/
structure Table where
  id : String
  page : ℕ
  rows : ℕ
  cols : ℕ
  bbox : Option (List ℚ)
  cells : List TableCell
deriving DecidableEq, Repr

/-- `schema.Edge` (`from_id` serializes under the alias `from`; the
source's `to` field is `to_id` here since `to` is a Lean keyword). -/
structure Edge where
  from_id : String
  to_id : String
  relation : String
deriving DecidableEq, Repr

/-- `schema.DocumentMeta`. -/
structure DocumentMeta where
  document_id : String
  schema_version : String
  source : String
  page_count : ℕ
deriving DecidableEq, Repr

/-- `schema.LayoutDocument` (root container; optional sections are
`None` when empty, as the assembler emits them). -/
structure LayoutDocument where
  document : DocumentMeta
  pages : List Page
  blocks : List Block
  spans : Option (List Span)
  tokens : Option (List Token)
  tables : Option (List Table)
  styles : Option (List (String × Style))
  reading_graph : Option (List Edge)
deriving DecidableEq, Repr

/-! ## Schema assembler (`merger/schema_assembler.py`) -/

/-- `schema_assembler._normalize_bbox`. -/
def normalize_bbox (bbox : List ℚ) (page_w page_h : ℚ) : List ℚ :=
  if page_w ≤ 0 ∨ page_h ≤ 0 then [0, 0, 0, 0]
  else [pyRound 6 (bbox.getD 0 0 / page_w), pyRound 6 (bbox.getD 1 0 / page_h),
        pyRound 6 (bbox.getD 2 0 / page_w), pyRound 6 (bbox.getD 3 0 / page_h)]

/-- `schema_assembler._safe_block_type`. -/
def safe_block_type (val : String) : String :=
  if VALID_TYPES.contains val then val else "paragraph"

/-- `schema_assembler._safe_role`. -/
def safe_role (val : String) : String :=
  if VALID_ROLES.contains val then val else "paragraph"

/-- `schema_assembler._safe_weight`. -/
def safe_weight (val : Option String) : Option String :=
  if val = some "normal" ∨ val = some "bold" then val else none

/-- `schema_assembler._safe_align`. -/
def safe_align (val : Option String) : Option String :=
  if val = some "left" ∨ val = some "center" ∨ val = some "right" ∨
     val = some "justify" then val else none

/-- `schema_assembler._html_tag_for_type`. -/
def html_tag_for_type (block_type : String) : String :=
  if block_type = "heading" then "h2"
  else if block_type = "paragraph" then "p"
  else if block_type = "list_item" then "li"
  else if block_type = "table" then "table"
  else if block_type = "figure" then "figure"
  else if block_type = "caption" then "figcaption"
  else if block_type = "header" then "header"
  else if block_type = "footer" then "footer"
  else if block_type = "page_number" then "span"
  else if block_type = "code_block" then "pre"
  else "p"

/-- `schema_assembler._build_rhetoric`: pydantic coerces each field to
its enum; any invalid string raises, which the source converts to
`None`. -/
def build_rhetoric (raw : RhetoricD) : Option Rhetoric :=
  let ok := fun (v : Option String) (vals : List String) =>
    match v with
    | none => true
    | some s => vals.contains s
  if ok raw.tone TONE_VALUES && ok raw.voice VOICE_VALUES &&
     ok raw.modality MODALITY_VALUES && ok raw.tense TENSE_VALUES &&
     ok raw.domain DOMAIN_VALUES then
    some ⟨raw.tone, raw.voice, raw.modality, raw.tense, raw.domain⟩
  else none

/-- `schema_assembler._build_rhetoric_features` (floats pass through). -/
def build_rhetoric_features (raw : RhetoricFeaturesD) : Option RhetoricFeatures :=
  some ⟨raw.avg_sentence_length, raw.modal_density, raw.passive_ratio,
        raw.legal_term_density⟩

/-- Stable sort by an integer key (Python `list.sort(key=...)`). -/
def pySortByZ {α : Type} (key : α → ℤ) (l : List α) : List α :=
  l.insertionSort (fun a b => key a ≤ key b)

/-- The accumulating state of `assemble_document`'s main loop. -/
structure AsmState where
  pages : List Page
  all_blocks : List Block
  all_spans : List Span
  all_tokens : List Token
  all_tables : List Table
  all_edges : List Edge
  prev_block_id : Option String
  fresh_k : ℕ
deriving Repr

/-- The text-block body of `assemble_document`'s page loop: emit the
block, its span, its word tokens, and the `next` edge from the previous
emitted block.  The source evaluates `str(uuid.uuid4())` as the eager
default for a missing `id` on every iteration, so the supply counter
always advances. -/
def emitBlock (fresh : ℕ → String) (page_num : ℕ) (page_w page_h : ℚ)
    (st : AsmState) (block_dict : BlockD) : AsmState :=
  let block_id := block_dict.id.getD (fresh st.fresh_k)
  let bbox := [block_dict.x0, block_dict.y0, block_dict.x1, block_dict.y1]
  let bbox_norm := normalize_bbox bbox page_w page_h
  let block_type := safe_block_type (block_dict.block_type.getD "paragraph")
  let role := safe_role (block_dict.role.getD "paragraph")
  let text := block_dict.text.getD ""
  let rhetoric := (block_dict.rhetoric.map build_rhetoric).getD none
  let rhetoric_features :=
    (block_dict.rhetoric_features.map build_rhetoric_features).getD none
  let html_tag := html_tag_for_type block_type
  let html_template := "<" ++ html_tag ++ ">\x7b\x7btext\x7d\x7d</" ++ html_tag ++ ">"
  let html_content := "<" ++ html_tag ++ ">" ++ text ++ "</" ++ html_tag ++ ">"
  let block : Block :=
    { id := block_id, type := block_type, role := some role, page := page_num
      bbox := bbox, bbox_norm := bbox_norm
      reading_order := block_dict.reading_order.getD 0, z_index := 0
      text := some text, style_id := block_dict.style_id
      html := some html_content, html_template := some html_template
      rhetoric := rhetoric, rhetoric_features := rhetoric_features }
  let span_id := "s-" ++ block_id
  let span : Span :=
    { id := span_id, block_id := block_id, text := text, bbox := bbox
      bbox_norm := bbox_norm, style_id := block_dict.style_id }
  let tokens := block_dict.words.map (fun w =>
    ({ text := w.text, bbox := [w.x0, w.y0, w.x1, w.y1]
       bbox_norm := normalize_bbox [w.x0, w.y0, w.x1, w.y1] page_w page_h
       block_id := block_id, span_id := span_id } : Token))
  let new_edges :=
    match st.prev_block_id with
    | some pid => [({ from_id := pid, to_id := block_id, relation := "next" } : Edge)]
    | none => []
  { st with
    all_blocks := st.all_blocks ++ [block]
    all_spans := st.all_spans ++ [span]
    all_tokens := st.all_tokens ++ tokens
    all_edges := st.all_edges ++ new_edges
    prev_block_id := some block_id
    fresh_k := st.fresh_k + 1 }

/-- The table body of `assemble_document`'s page loop: emit the `Table`
entity and, when the table has a (truthy, i.e. nonempty) bbox, a
synthetic table block whose `reading_order` is the number of blocks
already emitted, plus the `next` edge. -/
def emitTable (page_num : ℕ) (page_w page_h : ℚ)
    (st : AsmState) (tbl : TableD) : AsmState :=
  let cells := tbl.cells.map (fun c =>
    ({ row := c.row, col := c.col, row_span := c.row_span.getD 1
       col_span := c.col_span.getD 1, text := c.text.getD ""
       bbox := c.bbox, bbox_norm := normalize_bbox c.bbox page_w page_h } : TableCell))
  let table : Table :=
    { id := tbl.id, page := page_num, rows := tbl.rows, cols := tbl.cols
      bbox := some tbl.bbox, cells := cells }
  let st1 := { st with all_tables := st.all_tables ++ [table] }
  if tbl.bbox.isEmpty then st1
  else
    let table_block : Block :=
      { id := tbl.id, type := "table", role := some "table", page := page_num
        bbox := tbl.bbox, bbox_norm := normalize_bbox tbl.bbox page_w page_h
        reading_order := (st1.all_blocks.length : ℤ), z_index := 0
        text := some "[TABLE]", style_id := none, html := none
        html_template := none, rhetoric := none, rhetoric_features := none }
    let new_edges :=
      match st1.prev_block_id with
      | some pid => [({ from_id := pid, to_id := tbl.id, relation := "next" } : Edge)]
      | none => []
    { st1 with
      all_blocks := st1.all_blocks ++ [table_block]
      all_edges := st1.all_edges ++ new_edges
      prev_block_id := some tbl.id }

/-- One iteration of `assemble_document`'s page loop: append the `Page`,
emit the page's text blocks sorted by `reading_order`, then its
tables. -/
def processPage (fresh : ℕ → String) (merged_blocks : ℤ → List BlockD)
    (tables_by_page : ℤ → List TableD) (st : AsmState)
    (page_data : PageData) : AsmState :=
  let page_num := page_data.page_number
  let page_w := page_data.width
  let page_h := page_data.height
  let page_idx : ℤ := (page_num : ℤ) - 1
  let newPage : Page :=
    { page_number := page_num, width := page_w, height := page_h
      rotation := 0, unit := "pt" }
  let st0 := { st with pages := st.pages ++ [newPage] }
  let blocks := pySortByZ (fun b => b.reading_order.getD 0) (merged_blocks page_idx)
  let st1 := blocks.foldl (emitBlock fresh page_num page_w page_h) st0
  (tables_by_page page_idx).foldl (emitTable page_num page_w page_h) st1

/-- `schema_assembler.assemble_document`: build the final
`LayoutDocument` from pages, merged block dicts, tables and the styles
table.  `merged_blocks`/`tables_by_page` are the page-index keyed dicts
(`.get(page_idx, [])` becomes function application); `fresh` supplies
the eager `uuid4` defaults for missing block ids. -/
def assemble_document (fresh : ℕ → String) (doc_id : String)
    (pages_data : List PageData) (merged_blocks : ℤ → List BlockD)
    (tables_by_page : ℤ → List TableD) (styles : List (String × StyleD))
    (source_type : String := "pdf") : LayoutDocument :=
  let pydantic_styles := styles.map (fun sv =>
    (sv.1, ({ font_family := some sv.2.font_family, size := some sv.2.size
              weight := safe_weight (some sv.2.weight), italic := sv.2.italic
              underline := sv.2.underline, color := some sv.2.color
              align := safe_align (some sv.2.align) } : Style)))
  let st0 : AsmState := ⟨[], [], [], [], [], [], none, 0⟩
  let stF := pages_data.foldl (processPage fresh merged_blocks tables_by_page) st0
  { document := { document_id := doc_id, schema_version := "3.0",
                  source := source_type, page_count := stF.pages.length }
    pages := stF.pages
    blocks := stF.all_blocks
    spans := if stF.all_spans.isEmpty then none else some stF.all_spans
    tokens := if stF.all_tokens.isEmpty then none else some stF.all_tokens
    tables := if stF.all_tables.isEmpty then none else some stF.all_tables
    styles := if pydantic_styles.isEmpty then none else some pydantic_styles
    reading_graph := if stF.all_edges.isEmpty then none else some stF.all_edges }

/-! ## DOCX pagination (`geometry/docx_extractor._paginate`) -/

/-- Python `int()` truncation of a nonnegative-or-negative rational
toward zero. -/
def pyTruncQ (q : ℚ) : ℤ := if q ≥ 0 then qfloor q else -(qfloor (-q))

/-- Rebase a block onto its page: shift `y0`/`y1` (and its words) up by
`page_top`. -/
def rebaseBlock (page_top : ℚ) (b : BlockD) : BlockD :=
  { b with
    y0 := b.y0 - page_top
    y1 := b.y1 - page_top
    words := b.words.map (fun w => { w with y0 := w.y0 - page_top, y1 := w.y1 - page_top }) }

/-- Rebase a table onto its page (bbox components 1 and 3, and each
cell bbox). -/
def rebaseTable (page_top : ℚ) (t : TableD) : TableD :=
  let (b0, b1, b2, b3) := bbox4 t.bbox
  { t with
    bbox := [b0, b1 - page_top, b2, b3 - page_top]
    cells := t.cells.map (fun c =>
      let (c0, c1, c2, c3) := bbox4 c.bbox
      { c with bbox := [c0, c1 - page_top, c2, c3 - page_top] }) }

/-- `docx_extractor._paginate`: split the walked blocks and tables
across synthetic pages of height `page_h`; an item lands on the page
containing its `y0` (strict `<` at the bottom boundary), with
coordinates rebased to that page.  The by-page dicts become functions
defaulting to `[]`. -/
def paginate (blocks : List BlockD) (tables : List TableD)
    (page_w page_h : ℚ) :
    List PageData × (ℤ → List BlockD) × (ℤ → List TableD) :=
  if blocks.isEmpty ∧ tables.isEmpty then
    ([⟨1, page_w, page_h, []⟩], fun _ => [], fun _ => [])
  else
    let max_y := max (maxOver (·.y1) blocks)
                     (maxOver (fun t => (bbox4 t.bbox).2.2.2) tables)
    let n_pages : ℤ := max 1 (pyTruncQ (max_y / page_h) + 1)
    let pages_data := (List.range n_pages.toNat).map (fun idx =>
      (⟨idx + 1, page_w, page_h, []⟩ : PageData))
    let blocksBy := fun (i : ℤ) =>
      if 0 ≤ i ∧ i < n_pages then
        let page_top := (i : ℚ) * page_h
        (blocks.filter (fun b => decide (b.y0 ≥ page_top) &&
          decide (b.y0 < page_top + page_h))).map (rebaseBlock page_top)
      else []
    let tablesBy := fun (i : ℤ) =>
      if 0 ≤ i ∧ i < n_pages then
        let page_top := (i : ℚ) * page_h
        (tables.filter (fun t => decide ((bbox4 t.bbox).2.1 ≥ page_top) &&
          decide ((bbox4 t.bbox).2.1 < page_top + page_h))).map (rebaseTable page_top)
      else []
    (pages_data, blocksBy, tablesBy)

/-! ## CLI (`cli.py`)

`main` parses arguments, runs `process_document` and prints the JSON.
There is no `try`/`except` around the pipeline call: any exception
(including the `ValueError` raised by `process_document` for an
unsupported extension) escapes `main`, so the CPython interpreter prints
a traceback to stderr and the process exits with status 1.  `sys.exit`
is never called by the source; only `argparse` usage errors exit 2. -/

/-- `os.path.splitext(path)[1]` for the paths at hand: the suffix of the
last path component from its last dot (empty when the component has no
dot or only a leading dot). -/
def splitext_ext (path : String) : String :=
  let base := ((pySplit '/' path).getLastD path).toList
  let stripped := base.dropWhile (· = '.')
  let afterLast := fun (cs : List Char) =>
    (cs.foldl (fun acc c => if c = '.' then some [] else acc.map (fun l => l ++ [c]))
      (none : Option (List Char)))
  match afterLast stripped with
  | some extBody => ⟨'.' :: extBody⟩
  | none => ""

/-- The dispatch of `pipeline.process_document` on the lowercased
extension. -/
inductive Dispatch where
  | pdf
  | docx
  | unsupported (msg : String)
deriving DecidableEq, Repr

/-- `pipeline.process_document`'s extension dispatch: `.pdf` → PDF
pipeline, `.docx`/`.doc` → DOCX pipeline, anything else raises
`ValueError`. -/
def dispatch_ext (filepath : String) : Dispatch :=
  let ext := pyLower (splitext_ext filepath)
  if ext = ".pdf" then .pdf
  else if ext = ".docx" ∨ ext = ".doc" then .docx
  else .unsupported ("Unsupported file format: '" ++ ext ++ "'. Supported: .pdf, .docx")

/-- Outcome of one CLI run: normal termination (exit status 0) or an
uncaught exception (CPython: traceback on stderr, exit status 1). -/
inductive RunOutcome where
  | exit0 (stdout : String)
  | exit1_traceback (msg : String)
deriving DecidableEq, Repr

/-- `cli.main`: dispatch on the extension; an unsupported extension
raises uncaught; otherwise the pipeline either returns the JSON string
(printed, exit 0) or raises (uncaught, exit 1).  `pipelineResult`
abstracts the chosen pipeline's run. -/
def cli_run (filepath : String) (pipelineResult : Except String String) : RunOutcome :=
  match dispatch_ext filepath with
  | .unsupported msg => .exit1_traceback msg
  | _ =>
      match pipelineResult with
      | .ok out => .exit0 out
      | .error e => .exit1_traceback e

/-- The process exit status of a CLI run. -/
def exitCode : RunOutcome → ℕ
  | .exit0 _ => 0
  | .exit1_traceback _ => 1

/-! ## Pipeline cores (`pipeline.process_pdf` / `process_docx`,
`use_vision = False`)

The pure part of the orchestration, from extracted inputs to the
assembled document.  The char/table extraction itself is external I/O
(`pdfplumber`, `python-docx`) and enters as data: `pages_data_all` and
`tablesOf` (detected tables per 1-indexed page number).  `fresh` is the
stream of `uuid4` draws (drawn here sequentially; the source draws them
from worker threads, which only permutes the supply).  `hash` is the
SHA-256 style hasher of the style normalizer. -/

/-- The `use_vision = False` classification loop of `process_pdf`:
`block_type`, then `role` (which reads the just-assigned type), then
`reading_order = i`. -/
def classifyHeuristic (blocks : List BlockD) : List BlockD :=
  blocks.enum.map (fun ib =>
    let b1 := { ib.2 with block_type := some (guess_block_type ib.2) }
    let b2 := { b1 with role := some (guess_role b1) }
    { b2 with reading_order := some ((ib.1 : ℤ)) })

/-- The per-block effect of `normalize_styles` (it mutates each block
dict in place; `normalize_styles_fst` below shows the fold equals this
map). -/
def assignStyle (hash : StyleD → String) (b : BlockD) : BlockD :=
  { b with style_id := some (hash (styleOf b)) }

/-- One page of `process_pdf`'s geometry pass: build words, lines and
blocks from the page's chars, dedup against the page's detected tables,
and append the per-page assoc entries (keyed by `page_number - 1`),
threading the uuid supply counter. -/
def geoStep (fresh : ℕ → String) (tablesOf : ℕ → List TableD)
    (acc : List (ℤ × List BlockD) × List (ℤ × List TableD) × ℕ)
    (page : PageData) : List (ℤ × List BlockD) × List (ℤ × List TableD) × ℕ :=
  let r := build_blocks fresh acc.2.2 (build_lines (build_words page.chars))
  let tables := tablesOf page.page_number
  let blocks := deduplicate_blocks_from_tables r.1 tables
  (acc.1 ++ [((page.page_number : ℤ) - 1, blocks)],
   acc.2.1 ++ [((page.page_number : ℤ) - 1, tables)],
   r.2)

/-- `pipeline.process_pdf` with `use_vision=False`, from extracted
chars and detected tables to the assembled document:
page-range filter, per-page geometry + dedup, heuristic classification,
style normalization, assembly. -/
def process_pdf_core (fresh : ℕ → String) (hash : StyleD → String)
    (pages_data_all : List PageData) (tablesOf : ℕ → List TableD)
    (page_range : Option String) : LayoutDocument :=
  let doc_id := fresh 0
  let pages_data :=
    match page_range with
    | some pr =>
        let sel := parsePageRange pr pages_data_all.length
        pages_data_all.filter (fun p => decide (p.page_number ∈ sel))
    | none => pages_data_all
  let geo := pages_data.foldl (geoStep fresh tablesOf) ([], [], 1)
  let classified := geo.1.map (fun pb => (pb.1, classifyHeuristic pb.2))
  let flat := (classified.map Prod.snd).flatten
  let global_styles := (normalize_styles hash flat).2
  let styled := classified.map (fun pb => (pb.1, pb.2.map (assignStyle hash)))
  assemble_document (fun n => fresh (geo.2.2 + n)) doc_id pages_data
    (fun i => (styled.lookup i).getD [])
    (fun i => (geo.2.1.lookup i).getD [])
    global_styles "pdf"

/-- `pipeline.process_docx` with `use_vision=False`, from the walked
(pre-pagination) blocks and tables: paginate, style-normalize,
assemble with source `docx`. -/
def process_docx_core (fresh : ℕ → String) (hash : StyleD → String)
    (blocks : List BlockD) (tables : List TableD)
    (page_w page_h : ℚ) : LayoutDocument :=
  let doc_id := fresh 0
  let pg := paginate blocks tables page_w page_h
  let pages_data := pg.1
  let blocksBy := pg.2.1
  let tablesBy := pg.2.2
  let flat := (pages_data.map (fun p => blocksBy ((p.page_number : ℤ) - 1))).flatten
  let global_styles := (normalize_styles hash flat).2
  assemble_document (fun n => fresh (1 + n)) doc_id pages_data
    (fun i => (blocksBy i).map (assignStyle hash))
    tablesBy
    global_styles "docx"

/-! ## Reading-order bookkeeping (assembler projections) -/

/-- The (page, type, reading_order) projection of an emitted block. -/
def bproj (b : Block) : ℕ × String × ℤ := (b.page, b.type, b.reading_order)

/-- Selector for the text (non-table) entries of a given page. -/
def isPageText (pn : ℕ) (t : ℕ × String × ℤ) : Bool :=
  decide (t.1 = pn) && !decide (t.2.1 = "table")

/-- Reading orders of a page's text entries, in emission order. -/
def pageTextRo (pn : ℕ) (P : List (ℕ × String × ℤ)) : List ℤ :=
  (P.filter (isPageText pn)).map (fun t => t.2.2)

/-- Every table-typed block's reading order equals its index. -/
def tableRoInv (L : List Block) : Prop :=
  ∀ (k : ℕ) (hk : k < L.length), (L.get ⟨k, hk⟩).type = "table" →
    (L.get ⟨k, hk⟩).reading_order = (k : ℤ)

/-! ## C7 — determinism modulo the uuid supply

The only nondeterminism of a `use_vision=False` run is `uuid.uuid4()`
(the id supply `fresh`): erasing every uuid-derived field (the document
id, block ids, span ids and the `block_id`/`span_id`/edge-endpoint
references) makes two runs with different supplies equal. -/

/-- Null the uuid-supplied id of a block dict. -/
def eraseBlockD (b : BlockD) : BlockD := { b with id := none }

/-- Null the id of an assembled block. -/
def eraseBlock (b : Block) : Block := { b with id := "" }

/-- Null a span's own id and block reference. -/
def eraseSpan (s : Span) : Span := { s with id := "", block_id := "" }

/-- Null a token's block and span references. -/
def eraseToken (t : Token) : Token := { t with block_id := "", span_id := "" }

/-- Null an edge's endpoints. -/
def eraseEdge (e : Edge) : Edge := { e with from_id := "", to_id := "" }

/-- Erase all uuid-derived strings in an assembler state. -/
def eraseState (st : AsmState) : AsmState :=
  { st with
    all_blocks := st.all_blocks.map eraseBlock
    all_spans := st.all_spans.map eraseSpan
    all_tokens := st.all_tokens.map eraseToken
    all_edges := st.all_edges.map eraseEdge
    prev_block_id := st.prev_block_id.map (fun _ => "") }

/-- Erase all uuid-derived strings in an assembled document. -/
def eraseDoc (doc : LayoutDocument) : LayoutDocument :=
  { doc with
    document := { doc.document with document_id := "" }
    blocks := doc.blocks.map eraseBlock
    spans := doc.spans.map (·.map eraseSpan)
    tokens := doc.tokens.map (·.map eraseToken)
    reading_graph := doc.reading_graph.map (·.map eraseEdge) }

/-- The chain invariant of the assembler state: the edges so far are
exactly the consecutive-pairs chain of the emitted blocks, and
`prev_block_id` is the last emitted block's id. -/
def chainInv (st : AsmState) : Prop :=
  st.all_edges =
    List.zipWith (fun a b => Edge.mk a.id b.id "next") st.all_blocks st.all_blocks.tail ∧
  st.prev_block_id = st.all_blocks.getLast?.map (·.id)

/-- Referential-integrity invariant of the assembler state, relative to
the style-table keys: every block/span `style_id` resolves, every
span/token `block_id` and edge endpoint is an emitted block id, and the
pending `prev_block_id` is an emitted block id. -/
def refInv (keys : List String) (st : AsmState) : Prop :=
  (∀ b ∈ st.all_blocks, ∀ sid, b.style_id = some sid → sid ∈ keys) ∧
  (∀ sp ∈ st.all_spans, sp.block_id ∈ st.all_blocks.map (·.id) ∧
    ∀ sid, sp.style_id = some sid → sid ∈ keys) ∧
  (∀ tk ∈ st.all_tokens, tk.block_id ∈ st.all_blocks.map (·.id)) ∧
  (∀ e ∈ st.all_edges, e.from_id ∈ st.all_blocks.map (·.id) ∧
    e.to_id ∈ st.all_blocks.map (·.id)) ∧
  (∀ pid, st.prev_block_id = some pid → pid ∈ st.all_blocks.map (·.id))

/-! # Theorems -/

/-! ## Supporting lemmas -/

theorem qfloor_eq (q : ℚ) : qfloor q = ⌊q⌋ := Rat.floor_def.symm

theorem commonRunLen_le_left (x y : List Char) : commonRunLen x y ≤ x.length := by
  induction x generalizing y with
  | nil => cases y <;> simp [commonRunLen]
  | cons a as ih =>
      cases y with
      | nil => simp [commonRunLen]
      | cons b bs =>
          simp only [commonRunLen, List.length_cons]
          split
          · exact Nat.succ_le_succ (ih bs)
          · exact Nat.zero_le _

theorem commonRunLen_le_right (x y : List Char) : commonRunLen x y ≤ y.length := by
  induction x generalizing y with
  | nil => cases y <;> simp [commonRunLen]
  | cons a as ih =>
      cases y with
      | nil => simp [commonRunLen]
      | cons b bs =>
          simp only [commonRunLen, List.length_cons]
          split
          · exact Nat.succ_le_succ (ih bs)
          · exact Nat.zero_le _

/-- The longest-match block fits inside both lists. -/
theorem findLongestMatch_le (a b : List Char) :
    (findLongestMatch a b).1 + (findLongestMatch a b).2.2 ≤ a.length ∧
    (findLongestMatch a b).2.1 + (findLongestMatch a b).2.2 ≤ b.length := by
  unfold findLongestMatch
  apply List.foldlRecOn (motive := fun t : ℕ × ℕ × ℕ =>
    t.1 + t.2.2 ≤ a.length ∧ t.2.1 + t.2.2 ≤ b.length)
  · exact ⟨Nat.zero_le _, Nat.zero_le _⟩
  · intro t ht i hi
    apply List.foldlRecOn (motive := fun t : ℕ × ℕ × ℕ =>
      t.1 + t.2.2 ≤ a.length ∧ t.2.1 + t.2.2 ≤ b.length)
    · exact ht
    · intro t' ht' j hj
      dsimp only
      split
      · dsimp only
        constructor
        · have h1 : commonRunLen (a.drop i) (b.drop j) ≤ a.length - i :=
            le_trans (commonRunLen_le_left _ _) (by simp)
          have hi' : i < a.length := List.mem_range.mp hi
          omega
        · have h2 : commonRunLen (a.drop i) (b.drop j) ≤ b.length - j :=
            le_trans (commonRunLen_le_right _ _) (by simp)
          have hj' : j < b.length := List.mem_range.mp hj
          omega
      · exact ht'

/-- `matchSumF` with adequate fuel is fuel-independent. -/
theorem matchSumF_norm :
    ∀ (f : ℕ) (a b : List Char), a.length + b.length ≤ f →
      matchSumF f a b = matchSumF (a.length + b.length) a b := by
  intro f
  induction f using Nat.strong_induction_on with
  | _ f ih =>
    intro a b hf
    match f, hf with
    | 0, hf =>
        have : a.length + b.length = 0 := Nat.le_zero.mp hf
        rw [this]
    | f + 1, hf =>
        match hlen : a.length + b.length with
        | 0 =>
            have ha : a = [] := by
              cases a with
              | nil => rfl
              | cons x xs => simp only [List.length_cons] at hlen; omega
            have hb : b = [] := by
              cases b with
              | nil => rfl
              | cons x xs => simp only [List.length_cons] at hlen; omega
            subst ha; subst hb
            rfl
        | m + 1 =>
            have hbnd := findLongestMatch_le a b
            simp only [matchSumF]
            match hfm : findLongestMatch a b with
            | (i, j, k) =>
                rw [hfm] at hbnd
                dsimp only at hbnd
                by_cases hk : k = 0
                · simp [hk]
                · simp only [hk, if_false]
                  have hlt : (a.take i).length + (b.take j).length <
                      a.length + b.length := by
                    simp only [List.length_take]
                    omega
                  have hrt : (a.drop (i + k)).length + (b.drop (j + k)).length <
                      a.length + b.length := by
                    simp only [List.length_drop]
                    omega
                  have e1 : matchSumF f (a.take i) (b.take j) =
                      matchSumF ((a.take i).length + (b.take j).length) (a.take i) (b.take j) :=
                    ih f (Nat.lt_succ_self f) _ _ (by omega)
                  have e2 : matchSumF m (a.take i) (b.take j) =
                      matchSumF ((a.take i).length + (b.take j).length) (a.take i) (b.take j) :=
                    ih m (by omega) _ _ (by omega)
                  have e3 : matchSumF f (a.drop (i + k)) (b.drop (j + k)) =
                      matchSumF ((a.drop (i + k)).length + (b.drop (j + k)).length)
                        (a.drop (i + k)) (b.drop (j + k)) :=
                    ih f (Nat.lt_succ_self f) _ _ (by omega)
                  have e4 : matchSumF m (a.drop (i + k)) (b.drop (j + k)) =
                      matchSumF ((a.drop (i + k)).length + (b.drop (j + k)).length)
                        (a.drop (i + k)) (b.drop (j + k)) :=
                    ih m (by omega) _ _ (by omega)
                  rw [e1, e3, ← e2, ← e4]

theorem foldl_union_of_empty (total : ℕ) (l : List String) (acc : Finset ℕ)
    (h : ∀ p ∈ l, partPages total p = ∅) :
    l.foldl (fun acc part => acc ∪ partPages total part) acc = acc := by
  induction l generalizing acc with
  | nil => rfl
  | cons x xs ih =>
      have hx : partPages total x = ∅ := h x (List.mem_cons_self x xs)
      have hxs : ∀ p ∈ xs, partPages total p = ∅ := fun p hp => h p (List.mem_cons_of_mem x hp)
      simp only [List.foldl_cons, hx, Finset.union_empty]
      exact ih acc hxs

/-! ## C9 — page-range parsing -/

/-- C9: `_parse_page_range` maps `"1,3-5,10"` on a 12-page document to
exactly `{1, 3, 4, 5, 10}`; and whenever no comma part contributes an
in-range page, the whole range `{1..total}` is selected. -/
theorem C9_page_range_parsing :
    parsePageRange "1,3-5,10" 12 = {1, 3, 4, 5, 10} ∧
    ∀ (s : String) (total : ℕ),
      (∀ part ∈ pySplit ',' s, partPages total part = ∅) →
      parsePageRange s total = Finset.Icc 1 total := by
  constructor
  · decide
  · intro s total h
    unfold parsePageRange
    rw [foldl_union_of_empty total _ _ h]
    simp

/-- C9 witness: `"abc"` has no in-range part, so all 12 pages are
selected. -/
theorem C9_page_range_parsing_witness :
    parsePageRange "abc" 12 = Finset.Icc 1 12 :=
  C9_page_range_parsing.2 "abc" 12 (by decide)

/-! ## C5 — table de-duplication

The source divides the intersection area by `max(block area, 0.01)`,
not by the block's own area.  A fully-contained block of positive area
`≤ 0.005` therefore survives de-duplication, refuting both halves of
the claim; the amended claim replaces the denominator by
`max(area, 0.01)` (so full containment only guarantees removal for
area `> 0.005`). -/

/-- C5 counterexample: the block `[0, 0, 1/10, 1/25]` (area `1/250 > 0`)
lies entirely inside the detected table bbox `[0, 0, 10, 10]` and its
intersection-over-own-area is `1 > 0.5`, yet
`deduplicate_blocks_from_tables` keeps it (the code computes
`(1/250) / 0.01 = 2/5 ≤ 0.5`). -/
theorem C5_counterexample :
    (let b : BlockD :=
      { id := some "b", text := some "x", x0 := 0, y0 := 0, x1 := 1/10, y1 := 1/25
        fontname := some "F", size := some 10, color := some "#000000", words := []
        block_type := none, role := none, reading_order := none, rhetoric := none
        rhetoric_features := none, style_id := none }
     let t : TableD :=
      { id := "T", page := 1, rows := 1, cols := 1, bbox := [0, 0, 10, 10]
        cells := [], block_type := "table" }
     deduplicate_blocks_from_tables [b] [t] = [b] ∧
       (b.x1 - b.x0) * (b.y1 - b.y0) > 0 ∧
       ((min b.x1 10 - max b.x0 0) * (min b.y1 10 - max b.y0 0)) /
         ((b.x1 - b.x0) * (b.y1 - b.y0)) > 1/2) := by
  refine ⟨?_, by decide, by decide⟩
  decide

/-- C5 as amended: a block survives `deduplicate_blocks_from_tables`
iff (tables absent or) for every detected table, the intersection area
divided by `max(block area, 0.01)` stays at most the threshold `1/2`;
and every block of area `> 0.005` whose bbox lies entirely inside some
detected table bbox is removed. -/
theorem C5_dedup_amended (blocks : List BlockD) (tables : List TableD) :
    (∀ b : BlockD, b ∈ deduplicate_blocks_from_tables blocks tables ↔
      (b ∈ blocks ∧ (tables = [] ∨ ∀ t ∈ tables,
        max 0 (min b.x1 (bbox4 t.bbox).2.2.1 - max b.x0 (bbox4 t.bbox).1) *
          max 0 (min b.y1 (bbox4 t.bbox).2.2.2 - max b.y0 (bbox4 t.bbox).2.1) /
          max ((b.x1 - b.x0) * (b.y1 - b.y0)) (1/100) ≤ 1/2))) ∧
    (∀ b ∈ blocks, ∀ t ∈ tables,
      (bbox4 t.bbox).1 ≤ b.x0 → (bbox4 t.bbox).2.1 ≤ b.y0 →
      b.x1 ≤ (bbox4 t.bbox).2.2.1 → b.y1 ≤ (bbox4 t.bbox).2.2.2 →
      b.x0 ≤ b.x1 → b.y0 ≤ b.y1 →
      (b.x1 - b.x0) * (b.y1 - b.y0) > 1/200 →
      b ∉ deduplicate_blocks_from_tables blocks tables) := by
  have key : ∀ (b : BlockD) (t : TableD),
      (¬blockOverlapsTable (1/2) b t = true) ↔
      max 0 (min b.x1 (bbox4 t.bbox).2.2.1 - max b.x0 (bbox4 t.bbox).1) *
        max 0 (min b.y1 (bbox4 t.bbox).2.2.2 - max b.y0 (bbox4 t.bbox).2.1) /
        max ((b.x1 - b.x0) * (b.y1 - b.y0)) (1/100) ≤ 1/2 := by
    intro b t
    simp only [blockOverlapsTable, decide_eq_true_eq, not_lt]
  constructor
  · intro b
    unfold deduplicate_blocks_from_tables
    by_cases hT : tables.isEmpty
    · rw [if_pos hT]
      simp only [List.isEmpty_iff] at hT
      simp [hT]
    · rw [if_neg hT]
      have hTne : tables ≠ [] := by
        intro hE; rw [hE] at hT; simp at hT
      rw [List.mem_filter]
      simp only [Bool.not_eq_true', List.any_eq_false]
      constructor
      · rintro ⟨hmem, hover⟩
        exact ⟨hmem, Or.inr (fun t ht => (key b t).mp (hover t ht))⟩
      · rintro ⟨hmem, hcond⟩
        rcases hcond with h | hall
        · exact absurd h hTne
        · exact ⟨hmem, fun t ht => (key b t).mpr (hall t ht)⟩
  · intro b hb t ht h1 h2 h3 h4 h5 h6 harea
    unfold deduplicate_blocks_from_tables
    have hT : ¬tables.isEmpty := by
      cases tables with
      | nil => cases ht
      | cons x xs => simp
    rw [if_neg hT]
    intro hmem
    rw [List.mem_filter] at hmem
    rcases hmem with ⟨-, hover⟩
    simp only [Bool.not_eq_true', List.any_eq_false] at hover
    have hfalse := (key b t).mp (hover t ht)
    -- under containment the intersection is the block's own area
    rw [min_eq_left h3, min_eq_left h4, max_eq_left h1, max_eq_left h2] at hfalse
    rw [max_eq_right (by linarith : (0:ℚ) ≤ b.x1 - b.x0),
        max_eq_right (by linarith : (0:ℚ) ≤ b.y1 - b.y0)] at hfalse
    set A := (b.x1 - b.x0) * (b.y1 - b.y0) with hA
    by_cases hge : (1/100 : ℚ) ≤ A
    · rw [max_eq_left hge, div_self (by linarith : A ≠ 0)] at hfalse
      linarith
    · push_neg at hge
      rw [max_eq_right (le_of_lt hge)] at hfalse
      rw [show A / (1/100 : ℚ) = 100 * A from by ring] at hfalse
      linarith

/-- C5 amended witness: the unit block `[0,0,1,1]` inside the table
bbox `[0,0,2,2]` has area `1 > 0.005` and is removed. -/
theorem C5_dedup_amended_witness :
    ({ id := some "b", text := some "x", x0 := 0, y0 := 0, x1 := 1, y1 := 1
       fontname := some "F", size := some 10, color := some "#000000", words := []
       block_type := none, role := none, reading_order := none, rhetoric := none
       rhetoric_features := none, style_id := none } : BlockD) ∉
      deduplicate_blocks_from_tables
        [{ id := some "b", text := some "x", x0 := 0, y0 := 0, x1 := 1, y1 := 1
           fontname := some "F", size := some 10, color := some "#000000", words := []
           block_type := none, role := none, reading_order := none, rhetoric := none
           rhetoric_features := none, style_id := none }]
        [{ id := "T", page := 1, rows := 1, cols := 1, bbox := [0, 0, 2, 2]
           cells := [], block_type := "table" }] :=
  (C5_dedup_amended
      [{ id := some "b", text := some "x", x0 := 0, y0 := 0, x1 := 1, y1 := 1
         fontname := some "F", size := some 10, color := some "#000000", words := []
         block_type := none, role := none, reading_order := none, rhetoric := none
         rhetoric_features := none, style_id := none }]
      [{ id := "T", page := 1, rows := 1, cols := 1, bbox := [0, 0, 2, 2]
         cells := [], block_type := "table" }]).2
    { id := some "b", text := some "x", x0 := 0, y0 := 0, x1 := 1, y1 := 1
      fontname := some "F", size := some 10, color := some "#000000", words := []
      block_type := none, role := none, reading_order := none, rhetoric := none
      rhetoric_features := none, style_id := none } (by decide)
    { id := "T", page := 1, rows := 1, cols := 1, bbox := [0, 0, 2, 2]
      cells := [], block_type := "table" } (by decide)
    (by decide) (by decide) (by decide) (by decide) (by decide) (by decide) (by decide)

/-! ## C10 — build_words partitions the chars -/

theorem wordRunsGo_flatten (cs : List CharD) :
    ∀ cur : List CharD, (wordRunsGo cur cs).flatten = cur.reverse ++ cs := by
  induction cs with
  | nil => intro cur; simp [wordRunsGo]
  | cons c cs ih =>
      intro cur
      cases cur with
      | nil =>
          simp only [wordRunsGo]
          rw [ih [c]]
          simp
      | cons p rest =>
          simp only [wordRunsGo]
          split
          · rw [ih (c :: p :: rest)]
            simp
          · simp only [List.flatten_cons]
            rw [ih [c]]
            simp

theorem wordRuns_flatten (l : List CharD) : (wordRuns l).flatten = l := by
  cases l with
  | nil => rfl
  | cons c cs =>
      simp only [wordRuns]
      rw [wordRunsGo_flatten cs [c]]
      rfl

theorem string_foldl_append (l : List String) (s : String) :
    l.foldl (· ++ ·) s = s ++ l.foldl (· ++ ·) "" := by
  induction l generalizing s with
  | nil =>
      show s = s ++ ""
      exact (String.append_empty s).symm
  | cons x xs ih =>
      simp only [List.foldl_cons]
      rw [ih (s ++ x), ih ("" ++ x)]
      rw [String.append_assoc]
      rfl

theorem stringJoin_cons (x : String) (l : List String) :
    String.join (x :: l) = x ++ String.join l := by
  show List.foldl (fun r s => r ++ s) "" (x :: l) = _
  rw [List.foldl_cons]
  exact string_foldl_append l ("" ++ x)

theorem stringJoin_append (l1 l2 : List String) :
    String.join (l1 ++ l2) = String.join l1 ++ String.join l2 := by
  induction l1 with
  | nil => rfl
  | cons x xs ih =>
      rw [List.cons_append, stringJoin_cons, ih, stringJoin_cons,
        String.append_assoc]

theorem join_map_merge (runs : List (List CharD)) :
    String.join ((runs.map mergeChars).map (·.text)) =
      String.join (runs.flatten.map (·.text)) := by
  induction runs with
  | nil => rfl
  | cons r rs ih =>
      simp only [List.map_cons, List.flatten_cons, List.map_append]
      rw [stringJoin_cons, stringJoin_append, ih]
      rfl

/-- C10: `build_words` partitions its input — the word runs flatten back
to exactly the sorted char list (each char lands in exactly one word, in
order), the sorted list is a permutation of the input, and the
concatenation of the built words' texts equals the concatenation of the
chars' texts in `(round(y0,1), x0)`-sorted order. -/
theorem C10_build_words_partition (chars : List CharD) :
    (wordRuns (sortChars chars)).flatten = sortChars chars ∧
    (sortChars chars).Perm chars ∧
    String.join ((build_words chars).map (·.text)) =
      String.join ((sortChars chars).map (·.text)) := by
  refine ⟨wordRuns_flatten _, ?_, ?_⟩
  · exact List.perm_insertionSort _ _
  · show String.join (((wordRuns (sortChars chars)).map mergeChars).map (·.text)) = _
    rw [join_map_merge, wordRuns_flatten]

/-! ## C8 — CLI exit behavior

`cli.main` has no `try`/`except` and never calls `sys.exit`: the
`ValueError` that `process_document` raises for an unsupported extension
escapes `main`, so CPython prints a traceback to stderr and exits with
status 1 — not status 2, and no `ERROR <message>` line is written
(no such code path exists in the source).  Status 2 is produced only by
`argparse` for usage errors.  Also, `.doc` is accepted in addition to
the claim's `.pdf`/`.docx`. -/

/-- C8 counterexample: on `input.txt` the CLI run ends in an uncaught
`ValueError` — exit status 1 with a traceback, not status 2 with
`ERROR <message>`. -/
theorem C8_counterexample :
    cli_run "input.txt" (Except.ok "") =
      RunOutcome.exit1_traceback
        "Unsupported file format: '.txt'. Supported: .pdf, .docx" ∧
    exitCode (cli_run "input.txt" (Except.ok "")) = 1 ∧
    exitCode (cli_run "input.txt" (Except.ok "")) ≠ 2 := by
  refine ⟨by decide, by decide, by decide⟩

/-- C8 as amended: an unsupported extension makes `process_document`'s
`ValueError` escape `main` uncaught, so the process exits with status 1
(traceback on stderr, no `ERROR` prefix); a successful run exits 0 and
prints the JSON; a pipeline exception exits 1. -/
theorem C8_cli_exit_amended :
    (∀ (path : String) (pr : Except String String) (msg : String),
      dispatch_ext path = Dispatch.unsupported msg →
      cli_run path pr = RunOutcome.exit1_traceback msg ∧
        exitCode (cli_run path pr) = 1) ∧
    (∀ (path : String) (out : String),
      dispatch_ext path ≠ Dispatch.unsupported ((match dispatch_ext path with
        | Dispatch.unsupported m => m
        | _ => "")) →
      cli_run path (Except.ok out) = RunOutcome.exit0 out ∧
        exitCode (cli_run path (Except.ok out)) = 0) ∧
    (∀ (path : String) (e : String),
      (dispatch_ext path = Dispatch.pdf ∨ dispatch_ext path = Dispatch.docx) →
      cli_run path (Except.error e) = RunOutcome.exit1_traceback e ∧
        exitCode (cli_run path (Except.error e)) = 1) := by
  refine ⟨?_, ?_, ?_⟩
  · intro path pr msg h
    unfold cli_run
    rw [h]
    exact ⟨rfl, rfl⟩
  · intro path out h
    unfold cli_run
    match hd : dispatch_ext path with
    | Dispatch.pdf => exact ⟨rfl, rfl⟩
    | Dispatch.docx => exact ⟨rfl, rfl⟩
    | Dispatch.unsupported m => rw [hd] at h; simp at h
  · intro path e h
    unfold cli_run
    rcases h with h | h <;> rw [h] <;> exact ⟨rfl, rfl⟩

/-- C8 amended witness: `doc.pdf` succeeds with exit 0; `doc.txt` exits
1 with the uncaught `ValueError` message. -/
theorem C8_cli_exit_amended_witness :
    (cli_run "doc.pdf" (Except.ok "{}") = RunOutcome.exit0 "{}" ∧
      exitCode (cli_run "doc.pdf" (Except.ok "{}")) = 0) ∧
    (cli_run "doc.txt" (Except.ok "{}") =
        RunOutcome.exit1_traceback
          "Unsupported file format: '.txt'. Supported: .pdf, .docx" ∧
      exitCode (cli_run "doc.txt" (Except.ok "{}")) = 1) :=
  ⟨C8_cli_exit_amended.2.1 "doc.pdf" "{}" (by decide),
   C8_cli_exit_amended.1 "doc.txt" (Except.ok "{}") _ (by decide)⟩

/-! ## C2 — bbox normalization is not clamped to [0,1]

`_normalize_bbox` divides by the page dimensions and rounds to six
decimals but never clamps, while `_paginate` places a block on the page
containing its `y0` even when its `y1` extends past that page's bottom
edge.  A DOCX paragraph straddling a synthetic page boundary therefore
produces `bbox_norm[3] > 1` in the assembled document, contradicting
both the claim and `_normalize_bbox`'s own docstring ("Normalise
absolute bbox to [0, 1] range").  Such a paragraph is reachable: with
US-Letter defaults, 38 short paragraphs advance the cursor to
`y0 = 788.4 < 792` and the next paragraph ends at `y1 = 803.8 > 792`. -/

/-- C2 failing input, evaluated: the DOCX pipeline on a single walked
block with `y0 = 788.4`, `y1 = 803.8` on a 612×792 page yields an
assembled block (and span) with `bbox_norm[3] = 1.014899 > 1`. -/
theorem C2_bbox_norm_out_of_range :
    (let doc := process_docx_core (fun _ => "u") (fun _ => "h")
      [{ id := some "b", text := some "tall paragraph", x0 := 72, y0 := 7884/10
         x1 := 540, y1 := 8038/10, fontname := some "Calibri", size := some 11
         color := some "#000000", words := [], block_type := some "paragraph"
         role := some "paragraph", reading_order := some 0, rhetoric := none
         rhetoric_features := none, style_id := none }]
      [] 612 792
     doc.pages.length = 2 ∧
     (doc.blocks.map (fun b => b.bbox_norm.getD 3 0)) = [1014899/1000000] ∧
     ∀ b ∈ doc.blocks, b.bbox_norm.getD 3 0 > 1) := by
  refine ⟨by decide, by decide, by decide⟩

/-! ## C6 — fuzzy matching pass

`_find_best_tag` returns the best tag only when its ratio strictly
exceeds `0.4` (`best_score > 0.4`), not when it is `≥ 0.4` as the claim
states; a pair at ratio exactly `0.4` is left unmatched. -/

theorem bestFold_spec (r : String → String → ℚ) (bt : String) :
    ∀ (tags : List TagD) (init : ℚ × Option TagD),
      (tags.foldl
        (fun (best : ℚ × Option TagD) tag =>
          let tag_text := tag.text.getD ""
          if tag_text = "" then best
          else
            let score := r bt tag_text
            if score > best.1 then (score, some tag) else best) init = init ∨
        ∃ tg ∈ tags, tags.foldl
          (fun (best : ℚ × Option TagD) tag =>
            let tag_text := tag.text.getD ""
            if tag_text = "" then best
            else
              let score := r bt tag_text
              if score > best.1 then (score, some tag) else best) init =
          (r bt (tg.text.getD ""), some tg) ∧ tg.text.getD "" ≠ "") ∧
      init.1 ≤ (tags.foldl
        (fun (best : ℚ × Option TagD) tag =>
          let tag_text := tag.text.getD ""
          if tag_text = "" then best
          else
            let score := r bt tag_text
            if score > best.1 then (score, some tag) else best) init).1 ∧
      (∀ t' ∈ tags, (t'.text.getD "") ≠ "" →
        r bt (t'.text.getD "") ≤ (tags.foldl
          (fun (best : ℚ × Option TagD) tag =>
            let tag_text := tag.text.getD ""
            if tag_text = "" then best
            else
              let score := r bt tag_text
              if score > best.1 then (score, some tag) else best) init).1) := by
  intro tags
  induction tags with
  | nil =>
      intro init
      refine ⟨Or.inl rfl, le_refl _, ?_⟩
      intro t' ht'
      cases ht'
  | cons tag rest ih =>
      intro init
      simp only [List.foldl_cons]
      by_cases hempty : tag.text.getD "" = ""
      · simp only [hempty, if_pos rfl]
        obtain ⟨hmem, hle, hmax⟩ := ih init
        refine ⟨?_, hle, ?_⟩
        · rcases hmem with h | ⟨tg, htg, heq, hne⟩
          · exact Or.inl h
          · exact Or.inr ⟨tg, List.mem_cons_of_mem _ htg, heq, hne⟩
        · intro t' ht' hne
          rcases List.mem_cons.mp ht' with h | h
          · subst h; exact absurd hempty hne
          · exact hmax t' h hne
      · simp only [if_neg hempty]
        by_cases hgt : r bt (tag.text.getD "") > init.1
        · simp only [if_pos hgt]
          obtain ⟨hmem, hle, hmax⟩ := ih (r bt (tag.text.getD ""), some tag)
          refine ⟨?_, le_trans (le_of_lt hgt) hle, ?_⟩
          · rcases hmem with h | ⟨tg, htg, heq, hne⟩
            · exact Or.inr ⟨tag, List.mem_cons_self _ _, h, hempty⟩
            · exact Or.inr ⟨tg, List.mem_cons_of_mem _ htg, heq, hne⟩
          · intro t' ht' hne
            rcases List.mem_cons.mp ht' with h | h
            · subst h; exact hle
            · exact hmax t' h hne
        · simp only [if_neg hgt]
          obtain ⟨hmem, hle, hmax⟩ := ih init
          refine ⟨?_, hle, ?_⟩
          · rcases hmem with h | ⟨tg, htg, heq, hne⟩
            · exact Or.inl h
            · exact Or.inr ⟨tg, List.mem_cons_of_mem _ htg, heq, hne⟩
          · intro t' ht' hne
            rcases List.mem_cons.mp ht' with h | h
            · subst h; exact le_trans (not_lt.mp hgt) hle
            · exact hmax t' h hne

theorem find_best_tagW_some (r : String → String → ℚ) (b : BlockD)
    (tags : List TagD) (t : TagD)
    (h : find_best_tagW r b tags = some t) :
    t ∈ tags ∧ r (b.text.getD "") (t.text.getD "") > 2/5 ∧
      ∀ t' ∈ tags, (t'.text.getD "") ≠ "" →
        r (b.text.getD "") (t'.text.getD "") ≤ r (b.text.getD "") (t.text.getD "") := by
  unfold find_best_tagW at h
  by_cases hbt : b.text.getD "" = ""
  · rw [if_pos hbt] at h; cases h
  · rw [if_neg hbt] at h
    obtain ⟨hmem, -, hmax⟩ := bestFold_spec r (b.text.getD "") tags (0, none)
    set res := tags.foldl
      (fun (best : ℚ × Option TagD) tag =>
        let tag_text := tag.text.getD ""
        if tag_text = "" then best
        else
          let score := r (b.text.getD "") tag_text
          if score > best.1 then (score, some tag) else best) (0, none) with hres
    by_cases hthr : res.1 > 2/5
    · rw [if_pos hthr] at h
      rcases hmem with hinit | ⟨tg, htg, heq, -⟩
      · rw [hinit] at h; cases h
      · rw [heq] at h
        have ht : tg = t := Option.some.inj h
        subst ht
        rw [heq] at hthr hmax
        exact ⟨htg, hthr, hmax⟩
    · rw [if_neg hthr] at h; cases h

theorem find_best_tagW_none (r : String → String → ℚ) (b : BlockD)
    (tags : List TagD)
    (h : ∀ t ∈ tags, (t.text.getD "") ≠ "" →
      r (b.text.getD "") (t.text.getD "") ≤ 2/5) :
    find_best_tagW r b tags = none := by
  unfold find_best_tagW
  by_cases hbt : b.text.getD "" = ""
  · rw [if_pos hbt]
  · rw [if_neg hbt]
    obtain ⟨hmem, -, -⟩ := bestFold_spec r (b.text.getD "") tags (0, none)
    set res := tags.foldl
      (fun (best : ℚ × Option TagD) tag =>
        let tag_text := tag.text.getD ""
        if tag_text = "" then best
        else
          let score := r (b.text.getD "") tag_text
          if score > best.1 then (score, some tag) else best) (0, none) with hres
    have hle : res.1 ≤ 2/5 := by
      rcases hmem with hinit | ⟨tg, htg, heq, hne⟩
      · rw [hinit]; norm_num
      · rw [heq]; exact h tg htg hne
    rw [if_neg (not_lt.mpr hle)]

theorem fuzzyPassW_fst_eq (r : String → String → ℚ) :
    ∀ (ubs : List (ℕ × BlockD)) (tags : List TagD),
      (fuzzyPassW r ubs tags).1 = (fuzzyDecs r ubs tags).map
        (fun d => (d.1, match d.2.2 with
          | some t => apply_tag d.2.1 t (d.1 : ℤ)
          | none => setDefaults (d.1 : ℤ) d.2.1)) := by
  intro ubs
  induction ubs with
  | nil => intro tags; rfl
  | cons ib rest ih =>
      intro tags
      obtain ⟨i, b⟩ := ib
      simp only [fuzzyPassW, fuzzyDecs]
      cases hfb : find_best_tagW r b tags with
      | some t => simp only [List.map_cons]; rw [ih (tags.erase t)]
      | none => simp only [List.map_cons]; rw [ih tags]

theorem fuzzyDecs_consumption (r : String → String → ℚ) :
    ∀ (ubs : List (ℕ × BlockD)) (tags : List TagD) (t0 : TagD),
      ((fuzzyDecs r ubs tags).filterMap (fun d => d.2.2)).count t0 +
        ((fuzzyPassW r ubs tags).2).count t0 = tags.count t0 := by
  intro ubs
  induction ubs with
  | nil => intro tags t0; simp [fuzzyDecs, fuzzyPassW]
  | cons ib rest ih =>
      intro tags t0
      obtain ⟨i, b⟩ := ib
      simp only [fuzzyDecs, fuzzyPassW]
      cases hfb : find_best_tagW r b tags with
      | some t =>
          have hmem : t ∈ tags := (find_best_tagW_some r b tags t hfb).1
          have hih := ih (tags.erase t) t0
          simp only [List.filterMap_cons, List.count_cons]
          by_cases heq : t0 = t
          · subst heq
            have hpos : 1 ≤ tags.count t0 := List.count_pos_iff.mpr hmem
            have hself : (tags.erase t0).count t0 = tags.count t0 - 1 :=
              List.count_erase_self t0 tags
            rw [hself] at hih
            simp only [beq_self_eq_true, if_true]
            omega
          · have hne : (t == t0) = false := beq_false_of_ne (Ne.symm heq)
            have hoth : (tags.erase t).count t0 = tags.count t0 :=
              List.count_erase_of_ne heq tags
            rw [hoth] at hih
            rw [hne]
            simp only [Bool.false_eq_true, if_false]
            omega
      | none =>
          simp only [List.filterMap_cons]
          exact ih tags t0

set_option maxRecDepth 4000 in
/-- C6 counterexample: one index-unmatched block with text `"aaxxx"`
and one remaining tag with text `"aayyy"` have similarity ratio exactly
`0.4`; the claim says the tag wins (ratio ≥ 0.4), but
`match_blocks_to_tags` leaves the block with the default
`block_type = "paragraph"` instead of the tag's `"heading"`
(the code requires a ratio strictly greater than `0.4`). -/
theorem C6_counterexample :
    (let b : BlockD :=
      { id := some "b", text := some "aaxxx", x0 := 0, y0 := 0, x1 := 1, y1 := 1
        fontname := some "F", size := some 10, color := some "#000000", words := []
        block_type := none, role := none, reading_order := none, rhetoric := none
        rhetoric_features := none, style_id := none }
     let t : TagD :=
      { block_index := some 5, block_type := some "heading", role := some "section_title"
        reading_order := some 0, text := some "aayyy", rhetoric := none
        rhetoric_features := none }
     scoreOf "aaxxx" "aayyy" = 2/5 ∧
       (match_blocks_to_tags [b] [t]).map (·.block_type) = [some "paragraph"] ∧
       (match_blocks_to_tags [b] [t]).map (·.reading_order) = [some 0]) := by
  refine ⟨by decide, by decide, by decide⟩

/-- C6 as amended: in the fuzzy pass, each remaining block is matched
against the remaining tags by similarity ratio over the first 200
characters; the best remaining (nonempty-text) tag wins iff its ratio
is strictly greater than `0.4` (ratio exactly `0.4` loses); a winning
tag is consumed exactly once and never assigned to a second block; and
every block left without a tag receives `block_type = "paragraph"`,
`role = "paragraph"` and `reading_order` equal to its positional
index. -/
theorem C6_fuzzy_matching_amended :
    (∀ (r : String → String → ℚ) (b : BlockD) (tags : List TagD) (t : TagD),
      find_best_tagW r b tags = some t →
        t ∈ tags ∧ r (b.text.getD "") (t.text.getD "") > 2/5 ∧
        ∀ t' ∈ tags, (t'.text.getD "") ≠ "" →
          r (b.text.getD "") (t'.text.getD "") ≤ r (b.text.getD "") (t.text.getD "")) ∧
    (∀ (r : String → String → ℚ) (b : BlockD) (tags : List TagD),
      (∀ t ∈ tags, (t.text.getD "") ≠ "" →
        r (b.text.getD "") (t.text.getD "") ≤ 2/5) →
      find_best_tagW r b tags = none) ∧
    (∀ (r : String → String → ℚ) (ubs : List (ℕ × BlockD)) (tags : List TagD)
      (t0 : TagD),
      ((fuzzyDecs r ubs tags).filterMap (fun d => d.2.2)).count t0 +
        ((fuzzyPassW r ubs tags).2).count t0 = tags.count t0) ∧
    (∀ (r : String → String → ℚ) (ubs : List (ℕ × BlockD)) (tags : List TagD)
      (i : ℕ) (b : BlockD),
      (i, b, none) ∈ fuzzyDecs r ubs tags →
      b.block_type = none → b.role = none → b.reading_order = none →
      (i, { b with block_type := some "paragraph"
                   role := some "paragraph"
                   reading_order := some (i : ℤ) }) ∈ (fuzzyPassW r ubs tags).1) := by
  refine ⟨find_best_tagW_some, find_best_tagW_none, fuzzyDecs_consumption, ?_⟩
  intro r ubs tags i b hmem hbt hrole hro
  rw [fuzzyPassW_fst_eq]
  have himg : ((i, b, (none : Option TagD)).1,
      match (i, b, (none : Option TagD)).2.2 with
      | some t => apply_tag (i, b, (none : Option TagD)).2.1 t ((i, b, (none : Option TagD)).1 : ℤ)
      | none => setDefaults ((i, b, (none : Option TagD)).1 : ℤ) (i, b, (none : Option TagD)).2.1) ∈
      (fuzzyDecs r ubs tags).map (fun d => (d.1, match d.2.2 with
        | some t => apply_tag d.2.1 t (d.1 : ℤ)
        | none => setDefaults (d.1 : ℤ) d.2.1)) :=
    List.mem_map_of_mem _ hmem
  simp only at himg
  have hsd : setDefaults (i : ℤ) b =
      { b with block_type := some "paragraph"
               role := some "paragraph"
               reading_order := some (i : ℤ) } := by
    simp [setDefaults, hbt, hrole, hro]
  rw [hsd] at himg
  exact himg

/-- C6 amended witness: with one identical-text pair the tag wins
(ratio `1 > 0.4`) and is a member of the pool with maximal score. -/
theorem C6_fuzzy_matching_amended_witness :
    (let b : BlockD :=
      { id := some "b", text := some "ab", x0 := 0, y0 := 0, x1 := 1, y1 := 1
        fontname := some "F", size := some 10, color := some "#000000", words := []
        block_type := none, role := none, reading_order := none, rhetoric := none
        rhetoric_features := none, style_id := none }
     let t : TagD :=
      { block_index := some 5, block_type := some "heading", role := some "section_title"
        reading_order := some 0, text := some "ab", rhetoric := none
        rhetoric_features := none }
     t ∈ [t] ∧ scoreOf (b.text.getD "") (t.text.getD "") > 2/5 ∧
       ∀ t' ∈ [t], (t'.text.getD "") ≠ "" →
         scoreOf (b.text.getD "") (t'.text.getD "") ≤
           scoreOf (b.text.getD "") (t.text.getD "")) :=
  C6_fuzzy_matching_amended.1 scoreOf _ _ _ (by decide)

/-! ## C4 — the reading graph is one `next` chain in emission order -/

theorem chain_append (bs : List Block) (b : Block) :
    List.zipWith (fun a c => Edge.mk a.id c.id "next") (bs ++ [b]) ((bs ++ [b]).tail) =
      List.zipWith (fun a c => Edge.mk a.id c.id "next") bs bs.tail ++
        (match bs.getLast?.map (·.id) with
         | some pid => [Edge.mk pid b.id "next"]
         | none => []) := by
  induction bs with
  | nil => rfl
  | cons a as ih =>
      cases as with
      | nil => rfl
      | cons a2 as2 =>
          have hl : ((a :: a2 :: as2 : List Block) ++ [b]) = a :: ((a2 :: as2) ++ [b]) := rfl
          rw [hl]
          have ht : ((a :: (a2 :: as2) ++ [b] : List Block)).tail = (a2 :: as2) ++ [b] := rfl
          have hgl : ((a :: a2 :: as2 : List Block)).getLast? = (a2 :: as2).getLast? :=
            List.getLast?_cons_cons
          rw [hgl]
          have hz : List.zipWith (fun a c => Edge.mk a.id c.id "next")
              (a :: ((a2 :: as2) ++ [b])) ((a :: ((a2 :: as2) ++ [b])).tail) =
              Edge.mk a.id a2.id "next" ::
                List.zipWith (fun a c => Edge.mk a.id c.id "next")
                  ((a2 :: as2) ++ [b]) (((a2 :: as2) ++ [b]).tail) := rfl
          rw [hz, ih]
          rfl

theorem chainInv_emitBlock (fresh : ℕ → String) (pn : ℕ) (pw ph : ℚ)
    (st : AsmState) (d : BlockD) (h : chainInv st) :
    chainInv (emitBlock fresh pn pw ph st d) := by
  obtain ⟨he, hp⟩ := h
  unfold chainInv emitBlock
  dsimp only
  cases hprev : st.prev_block_id with
  | none =>
      rw [hprev] at hp
      have hbs : st.all_blocks = [] :=
        List.getLast?_eq_none_iff.mp (Option.map_eq_none'.mp hp.symm)
      rw [hbs] at he
      constructor
      · rw [he, hbs]
        rfl
      · rw [hbs]
        rfl
  | some pid =>
      rw [hprev] at hp
      constructor
      · rw [chain_append, ← hp, he]
      · rw [List.getLast?_concat]
        rfl

theorem chainInv_emitTable (pn : ℕ) (pw ph : ℚ)
    (st : AsmState) (t : TableD) (h : chainInv st) :
    chainInv (emitTable pn pw ph st t) := by
  obtain ⟨he, hp⟩ := h
  unfold chainInv emitTable
  dsimp only
  split
  · exact ⟨he, hp⟩
  · cases hprev : st.prev_block_id with
    | none =>
        rw [hprev] at hp
        have hbs : st.all_blocks = [] :=
          List.getLast?_eq_none_iff.mp (Option.map_eq_none'.mp hp.symm)
        rw [hbs] at he
        constructor
        · rw [he, hbs]
          rfl
        · rw [hbs]
          rfl
    | some pid =>
        rw [hprev] at hp
        constructor
        · rw [chain_append, ← hp, he]
        · rw [List.getLast?_concat]
          rfl

theorem chainInv_foldl {α : Type} (step : AsmState → α → AsmState)
    (hstep : ∀ st a, chainInv st → chainInv (step st a)) :
    ∀ (l : List α) (st : AsmState), chainInv st → chainInv (l.foldl step st) := by
  intro l
  induction l with
  | nil => intro st h; exact h
  | cons x xs ih => intro st h; exact ih (step st x) (hstep st x h)

theorem chainInv_processPage (fresh : ℕ → String) (mb : ℤ → List BlockD)
    (tb : ℤ → List TableD) (st : AsmState) (pd : PageData) (h : chainInv st) :
    chainInv (processPage fresh mb tb st pd) := by
  unfold processPage
  apply chainInv_foldl _ (fun st a => chainInv_emitTable _ _ _ st a)
  apply chainInv_foldl _ (fun st a => chainInv_emitBlock _ _ _ _ st a)
  exact h

/-- The edge ↔ zipWith-chain fact for the whole assembler. -/
theorem assemble_chainInv (fresh : ℕ → String) (doc_id : String)
    (pages_data : List PageData) (merged_blocks : ℤ → List BlockD)
    (tables_by_page : ℤ → List TableD) (styles : List (String × StyleD))
    (source_type : String) :
    chainInv (pages_data.foldl
      (processPage fresh merged_blocks tables_by_page) ⟨[], [], [], [], [], [], none, 0⟩) := by
  apply chainInv_foldl _ (fun st a => chainInv_processPage fresh _ _ st a)
  exact ⟨rfl, rfl⟩

theorem mem_zip_chain {bs : List Block} {e : Edge}
    (h : e ∈ List.zipWith (fun a b => Edge.mk a.id b.id "next") bs bs.tail) :
    e.relation = "next" := by
  induction bs with
  | nil => cases h
  | cons a as ih =>
      cases as with
      | nil => cases h
      | cons a2 as2 =>
          simp only [List.tail_cons, List.zipWith_cons_cons] at h
          rcases List.mem_cons.mp h with h | h
          · subst h; rfl
          · apply ih
            simpa using h

/-- C4: in every assembled document the reading graph is exactly the
one `next`-chain of the emitted blocks in emission order — with `N`
emitted blocks there are `N-1` edges, the `k`-th going from the `k`-th
emitted block's id to the `(k+1)`-th's, continuing across page
boundaries; no other relation occurs. -/
theorem C4_reading_graph_chain (fresh : ℕ → String) (doc_id : String)
    (pages_data : List PageData) (merged_blocks : ℤ → List BlockD)
    (tables_by_page : ℤ → List TableD) (styles : List (String × StyleD))
    (source_type : String) :
    (let doc := assemble_document fresh doc_id pages_data merged_blocks
        tables_by_page styles source_type
     (doc.reading_graph.getD []) =
        List.zipWith (fun a b => Edge.mk a.id b.id "next") doc.blocks doc.blocks.tail ∧
     (∀ e ∈ doc.reading_graph.getD [], e.relation = "next") ∧
     (doc.reading_graph.getD []).length = doc.blocks.length - 1) := by
  have hinv := assemble_chainInv fresh doc_id pages_data merged_blocks
    tables_by_page styles source_type
  obtain ⟨he, -⟩ := hinv
  have hdoc : (assemble_document fresh doc_id pages_data merged_blocks
      tables_by_page styles source_type).blocks =
      (pages_data.foldl (processPage fresh merged_blocks tables_by_page)
        ⟨[], [], [], [], [], [], none, 0⟩).all_blocks := rfl
  have hgraph : (assemble_document fresh doc_id pages_data merged_blocks
      tables_by_page styles source_type).reading_graph.getD [] =
      (pages_data.foldl (processPage fresh merged_blocks tables_by_page)
        ⟨[], [], [], [], [], [], none, 0⟩).all_edges := by
    show (if List.isEmpty _ then none else some _).getD [] = _
    split
    · next hemp => simp only [Option.getD_none]; exact (List.isEmpty_iff.mp hemp).symm
    · rfl
  refine ⟨?_, ?_, ?_⟩
  · rw [hgraph, hdoc, he]
  · intro e hmem
    rw [hgraph, he] at hmem
    exact mem_zip_chain hmem
  · rw [hgraph, hdoc, he, List.length_zipWith, List.length_tail]
    omega

/-! ## C3 — referential integrity -/

theorem mem_map_id_append {bs : List Block} {b : Block} {x : String}
    (h : x ∈ bs.map (·.id)) : x ∈ (bs ++ [b]).map (·.id) := by
  rw [List.map_append]
  exact List.mem_append_left _ h

theorem self_mem_map_id_append (bs : List Block) (b : Block) :
    b.id ∈ (bs ++ [b]).map (·.id) := by
  rw [List.map_append]
  exact List.mem_append_right _ (by simp)

theorem refInv_emitBlock (keys : List String) (fresh : ℕ → String) (pn : ℕ)
    (pw ph : ℚ) (st : AsmState) (d : BlockD) (hst : refInv keys st)
    (hd : ∀ sid, d.style_id = some sid → sid ∈ keys) :
    refInv keys (emitBlock fresh pn pw ph st d) := by
  obtain ⟨hB, hS, hT, hE, hP⟩ := hst
  unfold refInv emitBlock
  dsimp only
  refine ⟨?_, ?_, ?_, ?_, ?_⟩
  · intro b hb sid hsid
    rcases List.mem_append.mp hb with h | h
    · exact hB b h sid hsid
    · rcases List.mem_singleton.mp h with rfl
      exact hd sid hsid
  · intro sp hsp
    rcases List.mem_append.mp hsp with h | h
    · exact ⟨mem_map_id_append (hS sp h).1, (hS sp h).2⟩
    · rcases List.mem_singleton.mp h with rfl
      exact ⟨self_mem_map_id_append _ _, hd⟩
  · intro tk htk
    rcases List.mem_append.mp htk with h | h
    · exact mem_map_id_append (hT tk h)
    · rcases List.mem_map.mp h with ⟨w, -, rfl⟩
      exact self_mem_map_id_append _ _
  · intro e he
    rcases List.mem_append.mp he with h | h
    · exact ⟨mem_map_id_append (hE e h).1, mem_map_id_append (hE e h).2⟩
    · cases hprev : st.prev_block_id with
      | none => rw [hprev] at h; cases h
      | some pid =>
          rw [hprev] at h
          rcases List.mem_singleton.mp h with rfl
          exact ⟨mem_map_id_append (hP pid hprev), self_mem_map_id_append _ _⟩
  · intro pid hpid
    rcases Option.some.inj hpid with rfl
    exact self_mem_map_id_append _ _

theorem refInv_emitTable (keys : List String) (pn : ℕ) (pw ph : ℚ)
    (st : AsmState) (t : TableD) (hst : refInv keys st) :
    refInv keys (emitTable pn pw ph st t) := by
  obtain ⟨hB, hS, hT, hE, hP⟩ := hst
  unfold refInv emitTable
  dsimp only
  split
  · exact ⟨hB, hS, hT, hE, hP⟩
  · refine ⟨?_, ?_, ?_, ?_, ?_⟩
    · intro b hb sid hsid
      rcases List.mem_append.mp hb with h | h
      · exact hB b h sid hsid
      · rcases List.mem_singleton.mp h with rfl
        cases hsid
    · intro sp hsp
      exact ⟨mem_map_id_append (hS sp hsp).1, (hS sp hsp).2⟩
    · intro tk htk
      exact mem_map_id_append (hT tk htk)
    · intro e he
      rcases List.mem_append.mp he with h | h
      · exact ⟨mem_map_id_append (hE e h).1, mem_map_id_append (hE e h).2⟩
      · cases hprev : st.prev_block_id with
        | none => rw [hprev] at h; cases h
        | some pid =>
            rw [hprev] at h
            rcases List.mem_singleton.mp h with rfl
            exact ⟨mem_map_id_append (hP pid hprev), self_mem_map_id_append _ _⟩
    · intro pid hpid
      rcases Option.some.inj hpid with rfl
      exact self_mem_map_id_append _ _

theorem refInv_foldl_emitBlock (keys : List String) (fresh : ℕ → String)
    (pn : ℕ) (pw ph : ℚ) :
    ∀ (l : List BlockD) (st : AsmState), refInv keys st →
      (∀ d ∈ l, ∀ sid, d.style_id = some sid → sid ∈ keys) →
      refInv keys (l.foldl (emitBlock fresh pn pw ph) st) := by
  intro l
  induction l with
  | nil => intro st hst _; exact hst
  | cons x xs ih =>
      intro st hst hl
      exact ih _ (refInv_emitBlock keys fresh pn pw ph st x hst
          (hl x (List.mem_cons_self x xs)))
        (fun d hd => hl d (List.mem_cons_of_mem x hd))

theorem refInv_foldl_emitTable (keys : List String) (pn : ℕ) (pw ph : ℚ) :
    ∀ (l : List TableD) (st : AsmState), refInv keys st →
      refInv keys (l.foldl (emitTable pn pw ph) st) := by
  intro l
  induction l with
  | nil => intro st hst; exact hst
  | cons x xs ih =>
      intro st hst
      exact ih _ (refInv_emitTable keys pn pw ph st x hst)

theorem refInv_processPage (keys : List String) (fresh : ℕ → String)
    (mb : ℤ → List BlockD) (tb : ℤ → List TableD) (st : AsmState) (pd : PageData)
    (hst : refInv keys st)
    (hmb : ∀ i, ∀ d ∈ mb i, ∀ sid, d.style_id = some sid → sid ∈ keys) :
    refInv keys (processPage fresh mb tb st pd) := by
  unfold processPage
  apply refInv_foldl_emitTable
  apply refInv_foldl_emitBlock
  · exact hst
  · intro d hd
    exact hmb _ d ((List.perm_insertionSort _ _).mem_iff.mp hd)

theorem refInv_assemble (keys : List String) (fresh : ℕ → String)
    (merged_blocks : ℤ → List BlockD) (tables_by_page : ℤ → List TableD) :
    ∀ (pages_data : List PageData) (st : AsmState), refInv keys st →
      (∀ i, ∀ d ∈ merged_blocks i, ∀ sid, d.style_id = some sid → sid ∈ keys) →
      refInv keys (pages_data.foldl
        (processPage fresh merged_blocks tables_by_page) st) := by
  intro pages_data
  induction pages_data with
  | nil => intro st hst _; exact hst
  | cons p ps ih =>
      intro st hst hmb
      exact ih _ (refInv_processPage keys fresh _ _ st p hst hmb) hmb

theorem nsStep_keys_mono (hash : StyleD → String)
    (acc : List BlockD × List (String × StyleD)) (b : BlockD) (k : String)
    (h : k ∈ acc.2.map Prod.fst) : k ∈ (nsStep hash acc b).2.map Prod.fst := by
  unfold nsStep
  dsimp only
  split
  · exact h
  · rw [List.map_append]
    exact List.mem_append_left _ h

theorem ns_foldl_keys_mono (hash : StyleD → String) :
    ∀ (bs : List BlockD) (acc : List BlockD × List (String × StyleD)) (k : String),
      k ∈ acc.2.map Prod.fst →
      k ∈ (bs.foldl (nsStep hash) acc).2.map Prod.fst := by
  intro bs
  induction bs with
  | nil => intro acc k h; exact h
  | cons x xs ih =>
      intro acc k h
      exact ih _ k (nsStep_keys_mono hash acc x k h)

theorem nsStep_keys_self (hash : StyleD → String)
    (acc : List BlockD × List (String × StyleD)) (b : BlockD) :
    hash (styleOf b) ∈ (nsStep hash acc b).2.map Prod.fst := by
  unfold nsStep
  dsimp only
  split
  · next hcont => exact List.mem_of_elem_eq_true hcont
  · rw [List.map_append]
    exact List.mem_append_right _ (by simp)

theorem ns_foldl_keys_mem (hash : StyleD → String) :
    ∀ (bs : List BlockD) (acc : List BlockD × List (String × StyleD)) (b : BlockD),
      b ∈ bs → hash (styleOf b) ∈ (bs.foldl (nsStep hash) acc).2.map Prod.fst := by
  intro bs
  induction bs with
  | nil => intro acc b h; cases h
  | cons x xs ih =>
      intro acc b h
      rcases List.mem_cons.mp h with rfl | h
      · exact ns_foldl_keys_mono hash xs _ _ (nsStep_keys_self hash acc b)
      · exact ih _ b h

theorem lookup_mem {α : Type} :
    ∀ (l : List (ℤ × α)) (k : ℤ) (v : α), l.lookup k = some v → (k, v) ∈ l := by
  intro l
  induction l with
  | nil => intro k v h; cases h
  | cons p rest ih =>
      intro k v h
      obtain ⟨k', v'⟩ := p
      rw [List.lookup_cons] at h
      cases hbeq : (k == k') with
      | true =>
          rw [hbeq] at h
          simp only [if_true] at h
          rcases Option.some.inj h with rfl
          have : k = k' := beq_iff_eq.mp hbeq
          subst this
          exact List.mem_cons_self _ _
      | false =>
          rw [hbeq] at h
          simp only [Bool.false_eq_true, if_false] at h
          exact List.mem_cons_of_mem _ (ih k v h)

/-- Referential integrity of any assembled document whose merged block
dicts only carry style ids present in the styles table. -/
theorem getD_if_empty {α : Type} (l : List α) :
    (if l.isEmpty then (none : Option (List α)) else some l).getD [] = l := by
  by_cases h : l.isEmpty
  · rw [if_pos h, Option.getD_none]
    exact (List.isEmpty_iff.mp h).symm
  · rw [if_neg h, Option.getD_some]

/-- Referential integrity of any assembled document whose merged block
dicts only carry style ids present in the styles table. -/
theorem assemble_document_refIntegrity (fresh : ℕ → String) (doc_id : String)
    (pages_data : List PageData) (merged_blocks : ℤ → List BlockD)
    (tables_by_page : ℤ → List TableD) (styles : List (String × StyleD))
    (source_type : String)
    (hmb : ∀ i, ∀ d ∈ merged_blocks i, ∀ sid, d.style_id = some sid →
      sid ∈ styles.map Prod.fst) :
    (let doc := assemble_document fresh doc_id pages_data merged_blocks
        tables_by_page styles source_type
     (∀ b ∈ doc.blocks, ∀ sid, b.style_id = some sid →
        sid ∈ (doc.styles.getD []).map Prod.fst) ∧
     (∀ sp ∈ doc.spans.getD [], sp.block_id ∈ doc.blocks.map (·.id) ∧
        ∀ sid, sp.style_id = some sid → sid ∈ (doc.styles.getD []).map Prod.fst) ∧
     (∀ tk ∈ doc.tokens.getD [], tk.block_id ∈ doc.blocks.map (·.id)) ∧
     (∀ e ∈ doc.reading_graph.getD [], e.from_id ∈ doc.blocks.map (·.id) ∧
        e.to_id ∈ doc.blocks.map (·.id))) := by
  have hinv : refInv (styles.map Prod.fst)
      (pages_data.foldl (processPage fresh merged_blocks tables_by_page)
        ⟨[], [], [], [], [], [], none, 0⟩) := by
    apply refInv_assemble
    · exact ⟨fun b hb => absurd hb (List.not_mem_nil b),
        fun sp hsp => absurd hsp (List.not_mem_nil sp),
        fun tk htk => absurd htk (List.not_mem_nil tk),
        fun e he => absurd he (List.not_mem_nil e),
        fun pid hpid => by cases hpid⟩
    · exact hmb
  obtain ⟨hB, hS, hT, hE, -⟩ := hinv
  set stF := pages_data.foldl (processPage fresh merged_blocks tables_by_page)
    ⟨[], [], [], [], [], [], none, 0⟩ with hstF
  have hblocks : (assemble_document fresh doc_id pages_data merged_blocks
      tables_by_page styles source_type).blocks = stF.all_blocks := rfl
  have hspans : (assemble_document fresh doc_id pages_data merged_blocks
      tables_by_page styles source_type).spans.getD [] = stF.all_spans :=
    getD_if_empty _
  have htokens : (assemble_document fresh doc_id pages_data merged_blocks
      tables_by_page styles source_type).tokens.getD [] = stF.all_tokens :=
    getD_if_empty _
  have hedges : (assemble_document fresh doc_id pages_data merged_blocks
      tables_by_page styles source_type).reading_graph.getD [] = stF.all_edges :=
    getD_if_empty _
  have hkeys : ((assemble_document fresh doc_id pages_data merged_blocks
      tables_by_page styles source_type).styles.getD []).map Prod.fst =
      styles.map Prod.fst := by
    have h1 : (assemble_document fresh doc_id pages_data merged_blocks
        tables_by_page styles source_type).styles.getD [] =
        styles.map (fun sv =>
          (sv.1, ({ font_family := some sv.2.font_family, size := some sv.2.size
                    weight := safe_weight (some sv.2.weight), italic := sv.2.italic
                    underline := sv.2.underline, color := some sv.2.color
                    align := safe_align (some sv.2.align) } : Style))) :=
      getD_if_empty _
    rw [h1, List.map_map]
    rfl
  refine ⟨?_, ?_, ?_, ?_⟩
  · intro b hb sid hsid
    rw [hblocks] at hb
    rw [hkeys]
    exact hB b hb sid hsid
  · intro sp hsp
    rw [hspans] at hsp
    rw [hblocks, hkeys]
    exact hS sp hsp
  · intro tk htk
    rw [htokens] at htk
    rw [hblocks]
    exact hT tk htk
  · intro e he
    rw [hedges] at he
    rw [hblocks]
    exact hE e he

/-- Every block in the per-page styled lists carries a style id that
the global style table (computed over the flattened block list) knows. -/
theorem styled_lookup_cond (hash : StyleD → String)
    (classified : List (ℤ × List BlockD)) :
    ∀ i, ∀ d ∈ (((classified.map
        (fun pb => (pb.1, pb.2.map (assignStyle hash)))).lookup i).getD []),
      ∀ sid, d.style_id = some sid →
        sid ∈ (normalize_styles hash ((classified.map Prod.snd).flatten)).2.map Prod.fst := by
  intro i d hd sid hsid
  set styled := classified.map (fun pb => (pb.1, pb.2.map (assignStyle hash))) with hstyled
  cases hlk : styled.lookup i with
  | none => rw [hlk] at hd; cases hd
  | some v =>
      rw [hlk] at hd
      simp only [Option.getD_some] at hd
      have hpair := lookup_mem styled i v hlk
      rw [hstyled] at hpair
      rcases List.mem_map.mp hpair with ⟨pb, hpb, heq⟩
      have hv : v = pb.2.map (assignStyle hash) := (Prod.mk.injEq _ _ _ _ ▸ heq.symm).2
      rw [hv] at hd
      rcases List.mem_map.mp hd with ⟨b0, hb0, rfl⟩
      have hsid' : sid = hash (styleOf b0) := by
        have : (assignStyle hash b0).style_id = some (hash (styleOf b0)) := rfl
        rw [this] at hsid
        exact (Option.some.inj hsid).symm
      subst hsid'
      apply ns_foldl_keys_mem
      rw [List.mem_flatten]
      exact ⟨pb.2, List.mem_map_of_mem Prod.snd hpb, hb0⟩

/-- C3: in every document assembled by the (vision-disabled) PDF
pipeline, every `style_id` on a block resolves in the styles map, every
reading-graph edge's endpoints are ids of blocks in the blocks list,
and every span's and token's `block_id` is the id of a block in the
blocks list. -/
theorem C3_referential_integrity (fresh : ℕ → String) (hash : StyleD → String)
    (pages_data_all : List PageData) (tablesOf : ℕ → List TableD)
    (page_range : Option String) :
    (let doc := process_pdf_core fresh hash pages_data_all tablesOf page_range
     (∀ b ∈ doc.blocks, ∀ sid, b.style_id = some sid →
        sid ∈ (doc.styles.getD []).map Prod.fst) ∧
     (∀ sp ∈ doc.spans.getD [], sp.block_id ∈ doc.blocks.map (·.id) ∧
        ∀ sid, sp.style_id = some sid → sid ∈ (doc.styles.getD []).map Prod.fst) ∧
     (∀ tk ∈ doc.tokens.getD [], tk.block_id ∈ doc.blocks.map (·.id)) ∧
     (∀ e ∈ doc.reading_graph.getD [], e.from_id ∈ doc.blocks.map (·.id) ∧
        e.to_id ∈ doc.blocks.map (·.id))) := by
  unfold process_pdf_core
  dsimp only
  exact assemble_document_refIntegrity _ _ _ _ _ _ _ (styled_lookup_cond hash _)

/-- C3 witness: a one-char page run; the single block's style id
(hashed to `"h0"`) resolves in the assembled document's style table. -/
theorem C3_referential_integrity_witness :
    "h0" ∈ (((process_pdf_core (fun _ => "u") (fun _ => "h0")
      [{ page_number := 1, width := 612, height := 792
         chars := [{ text := "A", x0 := 10, y0 := 100, x1 := 18, y1 := 112
                     fontname := "Arial", size := 12, color := "#000000" }] }]
      (fun _ => []) none).styles.getD []).map Prod.fst) :=
  (C3_referential_integrity (fun _ => "u") (fun _ => "h0")
      [{ page_number := 1, width := 612, height := 792
         chars := [{ text := "A", x0 := 10, y0 := 100, x1 := 18, y1 := 112
                     fontname := "Arial", size := 12, color := "#000000" }] }]
      (fun _ => []) none).1
    ((process_pdf_core (fun _ => "u") (fun _ => "h0")
      [{ page_number := 1, width := 612, height := 792
         chars := [{ text := "A", x0 := 10, y0 := 100, x1 := 18, y1 := 112
                     fontname := "Arial", size := 12, color := "#000000" }] }]
      (fun _ => []) none).blocks.headD
      { id := "x", type := "paragraph", role := none, page := 1, bbox := []
        bbox_norm := [], reading_order := 0, z_index := 0, text := none
        style_id := none, html := none, html_template := none, rhetoric := none
        rhetoric_features := none })
    (by decide) "h0" (by decide)

/-- C4 witness: a one-page, two-block assembly; the single reading-graph
edge has relation `next`. -/
theorem C4_reading_graph_chain_witness :
    (((assemble_document (fun _ => "u") "d"
        [{ page_number := 1, width := 612, height := 792, chars := [] }]
        (fun i => if i = 0 then
          [{ id := some "b1", text := some "one", x0 := 0, y0 := 0, x1 := 10, y1 := 10
             fontname := some "F", size := some 10, color := some "#000000", words := []
             block_type := some "paragraph", role := some "paragraph"
             reading_order := some 0, rhetoric := none, rhetoric_features := none
             style_id := none },
           { id := some "b2", text := some "two", x0 := 0, y0 := 20, x1 := 10, y1 := 30
             fontname := some "F", size := some 10, color := some "#000000", words := []
             block_type := some "paragraph", role := some "paragraph"
             reading_order := some 1, rhetoric := none, rhetoric_features := none
             style_id := none }] else [])
        (fun _ => []) [] "pdf").reading_graph.getD []).headD
      { from_id := "x", to_id := "y", relation := "z" }).relation = "next" :=
  (C4_reading_graph_chain (fun _ => "u") "d"
      [{ page_number := 1, width := 612, height := 792, chars := [] }]
      (fun i => if i = 0 then
        [{ id := some "b1", text := some "one", x0 := 0, y0 := 0, x1 := 10, y1 := 10
           fontname := some "F", size := some 10, color := some "#000000", words := []
           block_type := some "paragraph", role := some "paragraph"
           reading_order := some 0, rhetoric := none, rhetoric_features := none
           style_id := none },
         { id := some "b2", text := some "two", x0 := 0, y0 := 20, x1 := 10, y1 := 30
           fontname := some "F", size := some 10, color := some "#000000", words := []
           block_type := some "paragraph", role := some "paragraph"
           reading_order := some 1, rhetoric := none, rhetoric_features := none
           style_id := none }] else [])
      (fun _ => []) [] "pdf").2.1 _ (by decide)

theorem blocks_pageTextRo (L : List Block) (pn : ℕ) :
    (L.filter (fun b => decide (b.page = pn) && !decide (b.type = "table"))).map
        (·.reading_order) =
      pageTextRo pn (L.map bproj) := by
  unfold pageTextRo
  rw [List.filter_map, List.map_map]
  rfl

theorem pageTextRo_append (pn : ℕ) (A B : List (ℕ × String × ℤ)) :
    pageTextRo pn (A ++ B) = pageTextRo pn A ++ pageTextRo pn B := by
  unfold pageTextRo
  rw [List.filter_append, List.map_append]

theorem emitBlock_proj (fresh : ℕ → String) (pn : ℕ) (pw ph : ℚ)
    (st : AsmState) (d : BlockD) :
    (emitBlock fresh pn pw ph st d).all_blocks.map bproj =
      st.all_blocks.map bproj ++
        [(pn, safe_block_type (d.block_type.getD "paragraph"),
          d.reading_order.getD 0)] := by
  unfold emitBlock
  dsimp only
  rw [List.map_append]
  rfl

theorem emitTable_proj (pn : ℕ) (pw ph : ℚ) (st : AsmState) (t : TableD) :
    (emitTable pn pw ph st t).all_blocks.map bproj =
      st.all_blocks.map bproj ++
        (if t.bbox.isEmpty then []
         else [((pn : ℕ), ("table" : String), (st.all_blocks.length : ℤ))]) := by
  unfold emitTable
  dsimp only
  by_cases h : t.bbox.isEmpty
  · rw [if_pos h, if_pos h, List.append_nil]
  · rw [if_neg h, if_neg h]
    dsimp only
    rw [List.map_append]
    rfl

theorem foldl_emitBlock_proj (fresh : ℕ → String) (pn : ℕ) (pw ph : ℚ)
    (ds : List BlockD) : ∀ (st : AsmState),
    ((ds.foldl (emitBlock fresh pn pw ph) st).all_blocks).map bproj =
      st.all_blocks.map bproj ++
        ds.map (fun d => ((pn : ℕ), safe_block_type (d.block_type.getD "paragraph"),
          d.reading_order.getD 0)) := by
  induction ds with
  | nil => intro st; rw [List.foldl_nil, List.map_nil, List.append_nil]
  | cons d ds ih =>
      intro st
      rw [List.foldl_cons, ih, emitBlock_proj, List.map_cons, List.append_assoc]
      rfl

theorem foldl_emitTable_ext (pn : ℕ) (pw ph : ℚ)
    (ts : List TableD) : ∀ (st : AsmState),
    ∃ ext : List (ℕ × String × ℤ),
      ((ts.foldl (emitTable pn pw ph) st).all_blocks).map bproj =
        st.all_blocks.map bproj ++ ext ∧
      ∀ e ∈ ext, e.2.1 = "table" := by
  induction ts with
  | nil =>
      intro st
      exact ⟨[], (List.append_nil _).symm, fun e he => absurd he (List.not_mem_nil e)⟩
  | cons t ts ih =>
      intro st
      rcases ih (emitTable pn pw ph st t) with ⟨ext, hEq, hAll⟩
      refine ⟨(if t.bbox.isEmpty then []
        else [((pn : ℕ), ("table" : String), (st.all_blocks.length : ℤ))]) ++ ext, ?_, ?_⟩
      · rw [List.foldl_cons, hEq, emitTable_proj, List.append_assoc]
      · intro e he
        rcases List.mem_append.mp he with h | h
        · by_cases hb : t.bbox.isEmpty
          · rw [if_pos hb] at h; cases h
          · rw [if_neg hb] at h
            rw [List.mem_singleton.mp h]
        · exact hAll e h

theorem foldl_emitTable_pageTextRo (pn2 pn : ℕ) (pw ph : ℚ) (ts : List TableD)
    (st : AsmState) :
    pageTextRo pn ((ts.foldl (emitTable pn2 pw ph) st).all_blocks.map bproj) =
      pageTextRo pn (st.all_blocks.map bproj) := by
  rcases foldl_emitTable_ext pn2 pw ph ts st with ⟨ext, hEq, hAll⟩
  rw [hEq, pageTextRo_append]
  have h1 : ∀ e ∈ ext, ¬ (isPageText pn e = true) := by
    intro e he
    unfold isPageText
    rw [hAll e he]
    simp
  have h2 : pageTextRo pn ext = [] := by
    unfold pageTextRo
    rw [List.filter_eq_nil_iff.mpr h1, List.map_nil]
  rw [h2, List.append_nil]

theorem emitTable_pages (pn : ℕ) (pw ph : ℚ) (st : AsmState) (t : TableD) :
    (emitTable pn pw ph st t).pages = st.pages := by
  unfold emitTable
  dsimp only
  by_cases h : t.bbox.isEmpty
  · rw [if_pos h]
  · rw [if_neg h]

theorem foldl_emitBlock_pages (fresh : ℕ → String) (pn : ℕ) (pw ph : ℚ)
    (ds : List BlockD) : ∀ (st : AsmState),
    (ds.foldl (emitBlock fresh pn pw ph) st).pages = st.pages := by
  induction ds with
  | nil => intro st; rfl
  | cons d ds ih => intro st; rw [List.foldl_cons, ih]; rfl

theorem foldl_emitTable_pages (pn : ℕ) (pw ph : ℚ)
    (ts : List TableD) : ∀ (st : AsmState),
    (ts.foldl (emitTable pn pw ph) st).pages = st.pages := by
  induction ts with
  | nil => intro st; rfl
  | cons t ts ih => intro st; rw [List.foldl_cons, ih, emitTable_pages]

theorem processPage_pages (fresh : ℕ → String) (mb : ℤ → List BlockD)
    (tb : ℤ → List TableD) (st : AsmState) (pd : PageData) :
    (processPage fresh mb tb st pd).pages =
      st.pages ++ [{ page_number := pd.page_number, width := pd.width
                     height := pd.height, rotation := 0, unit := "pt" }] := by
  unfold processPage
  dsimp only
  rw [foldl_emitTable_pages, foldl_emitBlock_pages]

theorem pages_fold_page_numbers (fresh : ℕ → String) (mb : ℤ → List BlockD)
    (tb : ℤ → List TableD) (ps : List PageData) : ∀ (st : AsmState),
    ((ps.foldl (processPage fresh mb tb) st).pages).map (·.page_number) =
      st.pages.map (·.page_number) ++ ps.map (·.page_number) := by
  induction ps with
  | nil => intro st; rw [List.foldl_nil, List.map_nil, List.append_nil]
  | cons p ps ih =>
      intro st
      rw [List.foldl_cons, ih, processPage_pages, List.map_append, List.append_assoc]
      rfl

theorem processPage_pageTextRo (fresh : ℕ → String) (mb : ℤ → List BlockD)
    (tb : ℤ → List TableD) (pn : ℕ)
    (htype : ∀ i, ∀ d ∈ mb i,
      safe_block_type (d.block_type.getD "paragraph") ≠ "table") :
    ∀ (st : AsmState) (pd : PageData),
    pageTextRo pn ((processPage fresh mb tb st pd).all_blocks.map bproj) =
      pageTextRo pn (st.all_blocks.map bproj) ++
        (if pd.page_number = pn then
          (pySortByZ (fun b => b.reading_order.getD 0)
            (mb ((pd.page_number : ℤ) - 1))).map (fun d => d.reading_order.getD 0)
         else []) := by
  intro st pd
  unfold processPage
  dsimp only
  rw [foldl_emitTable_pageTextRo, foldl_emitBlock_proj, pageTextRo_append]
  congr 1
  by_cases hp : pd.page_number = pn
  · rw [if_pos hp]
    unfold pageTextRo
    have h1 : ∀ e ∈ (pySortByZ (fun b => b.reading_order.getD 0)
        (mb ((pd.page_number : ℤ) - 1))).map
          (fun d => ((pd.page_number : ℕ),
            safe_block_type (d.block_type.getD "paragraph"),
            d.reading_order.getD 0)), isPageText pn e = true := by
      intro e he
      rcases List.mem_map.mp he with ⟨d, hd, rfl⟩
      have hd' : d ∈ mb ((pd.page_number : ℤ) - 1) :=
        (List.perm_insertionSort _ _).mem_iff.mp hd
      unfold isPageText
      dsimp only
      rw [decide_eq_true hp, decide_eq_false (htype _ d hd'), Bool.not_false,
        Bool.and_true]
    rw [List.filter_eq_self.mpr h1, List.map_map]
    rfl
  · rw [if_neg hp]
    unfold pageTextRo
    have h1 : ∀ e ∈ (pySortByZ (fun b => b.reading_order.getD 0)
        (mb ((pd.page_number : ℤ) - 1))).map
          (fun d => ((pd.page_number : ℕ),
            safe_block_type (d.block_type.getD "paragraph"),
            d.reading_order.getD 0)), ¬ (isPageText pn e = true) := by
      intro e he
      rcases List.mem_map.mp he with ⟨d, _, rfl⟩
      unfold isPageText
      dsimp only
      rw [decide_eq_false hp, Bool.false_and]
      simp
    rw [List.filter_eq_nil_iff.mpr h1, List.map_nil]

theorem pages_fold_pageTextRo (fresh : ℕ → String) (mb : ℤ → List BlockD)
    (tb : ℤ → List TableD) (pn : ℕ)
    (htype : ∀ i, ∀ d ∈ mb i,
      safe_block_type (d.block_type.getD "paragraph") ≠ "table")
    (ps : List PageData) : ∀ (st : AsmState),
    pageTextRo pn ((ps.foldl (processPage fresh mb tb) st).all_blocks.map bproj) =
      pageTextRo pn (st.all_blocks.map bproj) ++
        ((ps.filter (fun p => decide (p.page_number = pn))).map (fun p =>
          (pySortByZ (fun b => b.reading_order.getD 0)
            (mb ((p.page_number : ℤ) - 1))).map
              (fun d => d.reading_order.getD 0))).flatten := by
  induction ps with
  | nil =>
      intro st
      rw [List.foldl_nil, List.filter_nil, List.map_nil, List.flatten_nil,
        List.append_nil]
  | cons p ps ih =>
      intro st
      rw [List.foldl_cons, ih, processPage_pageTextRo fresh mb tb pn htype,
        List.filter_cons]
      by_cases hp : p.page_number = pn
      · have hc : decide (p.page_number = pn) = true := decide_eq_true hp
        rw [if_pos hp, if_pos hc, List.map_cons, List.flatten_cons,
          List.append_assoc]
      · have hc : ¬ (decide (p.page_number = pn) = true) := by
          rw [decide_eq_false hp]; simp
        rw [if_neg hp, if_neg hc, List.append_nil]

theorem filter_key_singleton (f : PageData → ℕ) :
    ∀ (l : List PageData), (l.map f).Nodup → ∀ a ∈ l,
      l.filter (fun x => decide (f x = f a)) = [a] := by
  intro l
  induction l with
  | nil => intro _ a ha; cases ha
  | cons x t ih =>
      intro hnd a ha
      rw [List.map_cons, List.nodup_cons] at hnd
      rcases List.mem_cons.mp ha with heq | hat
      · subst heq
        have hc : decide (f a = f a) = true := decide_eq_true rfl
        rw [List.filter_cons, if_pos hc]
        congr 1
        rw [List.filter_eq_nil_iff]
        intro y hy hfy
        rw [decide_eq_true_eq] at hfy
        exact hnd.1 (by rw [← hfy]; exact List.mem_map_of_mem f hy)
      · have hne : f x ≠ f a := fun hEq =>
          hnd.1 (hEq ▸ List.mem_map_of_mem f hat)
        have hc : ¬ (decide (f x = f a) = true) := by
          rw [decide_eq_false hne]; simp
        rw [List.filter_cons, if_neg hc, ih hnd.2 a hat]

theorem guess_block_type_ne_table (b : BlockD) : guess_block_type b ≠ "table" := by
  unfold guess_block_type
  dsimp only
  split_ifs <;> decide

theorem safe_block_type_ne_table (v : String) (h : v ≠ "table") :
    safe_block_type v ≠ "table" := by
  unfold safe_block_type
  split
  · exact h
  · decide

theorem classify_styled_type_ne (hash : StyleD → String) (w : List BlockD) :
    ∀ d ∈ (classifyHeuristic w).map (assignStyle hash),
      safe_block_type (d.block_type.getD "paragraph") ≠ "table" := by
  intro d hd
  rcases List.mem_map.mp hd with ⟨c, hc, rfl⟩
  unfold classifyHeuristic at hc
  rcases List.mem_map.mp hc with ⟨ib, _, rfl⟩
  exact safe_block_type_ne_table _ (guess_block_type_ne_table ib.2)

theorem classify_styled_ro (hash : StyleD → String) (w : List BlockD) :
    ((classifyHeuristic w).map (assignStyle hash)).map (fun d => d.reading_order) =
      (List.range (((classifyHeuristic w).map (assignStyle hash)).length)).map
        (fun n => some ((n : ℕ) : ℤ)) := by
  have hlen : ((classifyHeuristic w).map (assignStyle hash)).length = w.length := by
    rw [List.length_map]
    unfold classifyHeuristic
    rw [List.length_map, List.enum_length]
  rw [hlen]
  unfold classifyHeuristic
  rw [List.map_map, List.map_map, ← List.enum_map_fst w, List.map_map]
  rfl

theorem pySortByZ_ro_range (l : List BlockD)
    (h : l.map (fun d => d.reading_order) =
      (List.range l.length).map (fun n => some ((n : ℕ) : ℤ))) :
    pySortByZ (fun b => b.reading_order.getD 0) l = l := by
  apply List.Sorted.insertionSort_eq
  have h1 : l.map (fun b => (b.reading_order).getD 0) =
      (List.range l.length).map (fun n => ((n : ℕ) : ℤ)) := by
    have e1 : l.map (fun b => (b.reading_order).getD 0) =
        (l.map (fun d => d.reading_order)).map (fun o => o.getD 0) := by
      rw [List.map_map]; rfl
    rw [e1, h, List.map_map]
    rfl
  have h2 : List.Pairwise (fun (a b : ℤ) => a ≤ b)
      (l.map (fun b => (b.reading_order).getD 0)) := by
    rw [h1]
    exact (List.pairwise_lt_range l.length).map _
      (fun a b hab => by exact_mod_cast Nat.le_of_lt hab)
  exact List.pairwise_map.mp h2

theorem getD0_ro_range (l : List BlockD)
    (h : l.map (fun d => d.reading_order) =
      (List.range l.length).map (fun n => some ((n : ℕ) : ℤ))) :
    l.map (fun d => d.reading_order.getD 0) =
      (List.range l.length).map (fun n => ((n : ℕ) : ℤ)) := by
  have e1 : l.map (fun b => (b.reading_order).getD 0) =
      (l.map (fun d => d.reading_order)).map (fun o => o.getD 0) := by
    rw [List.map_map]; rfl
  rw [e1, h, List.map_map]
  rfl

theorem range_map_cast_of_eq {L : List ℤ} {n : ℕ}
    (h : L = (List.range n).map (fun k => ((k : ℕ) : ℤ))) :
    L = (List.range L.length).map (fun k => ((k : ℕ) : ℤ)) := by
  rw [h, List.length_map, List.length_range]

theorem tableRoInv_append (L : List Block) (b : Block)
    (hL : tableRoInv L)
    (hb : b.type = "table" → b.reading_order = (L.length : ℤ)) :
    tableRoInv (L ++ [b]) := by
  intro k hk htype
  have hk2 : k < L.length + 1 := by
    have h3 := hk
    rw [List.length_append, List.length_singleton] at h3
    exact h3
  by_cases h : k < L.length
  · have e : (L ++ [b]).get ⟨k, hk⟩ = L.get ⟨k, h⟩ := by
      simp only [List.get_eq_getElem]
      exact List.getElem_append_left _
    rw [e] at htype ⊢
    exact hL k h htype
  · have hk' : k = L.length := by omega
    subst hk'
    have e : (L ++ [b]).get ⟨L.length, hk⟩ = b := by
      simp only [List.get_eq_getElem]
      exact List.getElem_concat_length L b _ rfl _
    rw [e] at htype ⊢
    exact hb htype

theorem tableRoInv_emitBlock (fresh : ℕ → String) (pn : ℕ) (pw ph : ℚ)
    (st : AsmState) (d : BlockD)
    (hty : safe_block_type (d.block_type.getD "paragraph") ≠ "table")
    (h : tableRoInv st.all_blocks) :
    tableRoInv (emitBlock fresh pn pw ph st d).all_blocks := by
  unfold emitBlock
  dsimp only
  exact tableRoInv_append _ _ h (fun htype => absurd htype hty)

theorem tableRoInv_emitTable (pn : ℕ) (pw ph : ℚ) (st : AsmState) (t : TableD)
    (h : tableRoInv st.all_blocks) :
    tableRoInv (emitTable pn pw ph st t).all_blocks := by
  unfold emitTable
  dsimp only
  by_cases hb : t.bbox.isEmpty
  · rw [if_pos hb]; exact h
  · rw [if_neg hb]
    exact tableRoInv_append _ _ h (fun _ => rfl)

theorem tableRoInv_foldl_emitBlock (fresh : ℕ → String) (pn : ℕ) (pw ph : ℚ)
    (ds : List BlockD) : ∀ (st : AsmState),
    (∀ d ∈ ds, safe_block_type (d.block_type.getD "paragraph") ≠ "table") →
    tableRoInv st.all_blocks →
    tableRoInv ((ds.foldl (emitBlock fresh pn pw ph) st).all_blocks) := by
  induction ds with
  | nil => intro st _ h; exact h
  | cons d ds ih =>
      intro st hty h
      rw [List.foldl_cons]
      exact ih _ (fun d' hd' => hty d' (List.mem_cons_of_mem d hd'))
        (tableRoInv_emitBlock _ _ _ _ _ _ (hty d (List.mem_cons_self d ds)) h)

theorem tableRoInv_foldl_emitTable (pn : ℕ) (pw ph : ℚ)
    (ts : List TableD) : ∀ (st : AsmState),
    tableRoInv st.all_blocks →
    tableRoInv ((ts.foldl (emitTable pn pw ph) st).all_blocks) := by
  induction ts with
  | nil => intro st h; exact h
  | cons t ts ih =>
      intro st h
      rw [List.foldl_cons]
      exact ih _ (tableRoInv_emitTable _ _ _ _ _ h)

theorem tableRoInv_processPage (fresh : ℕ → String) (mb : ℤ → List BlockD)
    (tb : ℤ → List TableD)
    (htype : ∀ i, ∀ d ∈ mb i,
      safe_block_type (d.block_type.getD "paragraph") ≠ "table")
    (st : AsmState) (pd : PageData)
    (h : tableRoInv st.all_blocks) :
    tableRoInv (processPage fresh mb tb st pd).all_blocks := by
  unfold processPage
  dsimp only
  apply tableRoInv_foldl_emitTable
  apply tableRoInv_foldl_emitBlock
  · intro d hd
    exact htype _ d ((List.perm_insertionSort _ _).mem_iff.mp hd)
  · exact h

theorem tableRoInv_pages_fold (fresh : ℕ → String) (mb : ℤ → List BlockD)
    (tb : ℤ → List TableD)
    (htype : ∀ i, ∀ d ∈ mb i,
      safe_block_type (d.block_type.getD "paragraph") ≠ "table")
    (ps : List PageData) : ∀ (st : AsmState), tableRoInv st.all_blocks →
    tableRoInv ((ps.foldl (processPage fresh mb tb) st).all_blocks) := by
  induction ps with
  | nil => intro st h; exact h
  | cons p ps ih =>
      intro st h
      rw [List.foldl_cons]
      exact ih _ (tableRoInv_processPage _ _ _ htype _ _ h)

theorem lookup_map_snd {β γ : Type} (g : β → γ) :
    ∀ (l : List (ℤ × β)) (k : ℤ),
      (l.map (fun pb => (pb.1, g pb.2))).lookup k = (l.lookup k).map g := by
  intro l
  induction l with
  | nil => intro k; rfl
  | cons a t ih =>
      intro k
      obtain ⟨k', v⟩ := a
      rw [List.map_cons]
      dsimp only
      rw [List.lookup_cons, List.lookup_cons]
      cases h : (k == k') with
      | true => rfl
      | false => exact ih k

theorem styled_lookup_type_ne (hash : StyleD → String)
    (geo1 : List (ℤ × List BlockD)) (i : ℤ) :
    ∀ d ∈ ((((geo1.map (fun pb => (pb.1, classifyHeuristic pb.2))).map
        (fun pb => (pb.1, pb.2.map (assignStyle hash)))).lookup i).getD []),
      safe_block_type (d.block_type.getD "paragraph") ≠ "table" := by
  intro d hd
  rw [lookup_map_snd, lookup_map_snd] at hd
  cases hlk : geo1.lookup i with
  | none => rw [hlk] at hd; simp at hd
  | some w =>
      rw [hlk] at hd
      simp only [Option.map_some', Option.getD_some] at hd
      exact classify_styled_type_ne hash w d hd

theorem styled_lookup_ro (hash : StyleD → String)
    (geo1 : List (ℤ × List BlockD)) (i : ℤ) :
    (((((geo1.map (fun pb => (pb.1, classifyHeuristic pb.2))).map
        (fun pb => (pb.1, pb.2.map (assignStyle hash)))).lookup i).getD [])).map
        (fun d => d.reading_order) =
      (List.range (((((geo1.map (fun pb => (pb.1, classifyHeuristic pb.2))).map
        (fun pb => (pb.1, pb.2.map (assignStyle hash)))).lookup i).getD
          [])).length).map
        (fun n => some ((n : ℕ) : ℤ)) := by
  rw [lookup_map_snd, lookup_map_snd]
  cases hlk : geo1.lookup i with
  | none => simp
  | some w =>
      simp only [Option.map_some', Option.getD_some]
      exact classify_styled_ro hash w

theorem assemble_reading_order (fresh : ℕ → String) (doc_id : String)
    (pages_data : List PageData) (mb : ℤ → List BlockD)
    (tb : ℤ → List TableD) (styles : List (String × StyleD)) (src : String)
    (hnd : (pages_data.map (·.page_number)).Nodup)
    (htype : ∀ i, ∀ d ∈ mb i,
      safe_block_type (d.block_type.getD "paragraph") ≠ "table")
    (hro : ∀ i, (mb i).map (fun d => d.reading_order) =
      (List.range (mb i).length).map (fun n => some ((n : ℕ) : ℤ))) :
    (let doc := assemble_document fresh doc_id pages_data mb tb styles src
     (∀ pn ∈ doc.pages.map (·.page_number),
        (doc.blocks.filter (fun b =>
            decide (b.page = pn) && !decide (b.type = "table"))).map
            (·.reading_order) =
          (List.range ((doc.blocks.filter (fun b =>
            decide (b.page = pn) && !decide (b.type = "table"))).length)).map
            (fun n => ((n : ℕ) : ℤ))) ∧
     (∀ (k : ℕ) (hk : k < doc.blocks.length),
        (doc.blocks.get ⟨k, hk⟩).type = "table" →
        (doc.blocks.get ⟨k, hk⟩).reading_order = (k : ℤ))) := by
  unfold assemble_document
  dsimp only
  constructor
  · intro pn hpn
    rw [pages_fold_page_numbers] at hpn
    dsimp only at hpn
    rw [List.map_nil, List.nil_append] at hpn
    rcases List.mem_map.mp hpn with ⟨p, hp, rfl⟩
    rw [← List.length_map _ (fun b : Block => b.reading_order)]
    apply range_map_cast_of_eq
    rw [blocks_pageTextRo,
      pages_fold_pageTextRo fresh mb tb _ htype pages_data]
    have h0 : pageTextRo p.page_number
        ((⟨[], [], [], [], [], [], none, 0⟩ : AsmState).all_blocks.map bproj) =
        [] := rfl
    rw [h0, List.nil_append,
      filter_key_singleton (fun q : PageData => q.page_number) pages_data hnd p hp,
      List.map_cons, List.map_nil, List.flatten_cons, List.flatten_nil,
      List.append_nil, pySortByZ_ro_range _ (hro _), getD0_ro_range _ (hro _)]
  · have h0 : tableRoInv
        ((⟨[], [], [], [], [], [], none, 0⟩ : AsmState).all_blocks) := by
      intro k hk
      cases hk
    exact tableRoInv_pages_fold fresh mb tb htype pages_data _ h0


set_option maxRecDepth 4000 in
/-- C1 (amended): with the Vision API disabled, the heuristic pass gives
each page's text blocks reading orders `0..n-1` in document order; a
synthetic table block instead carries the document-wide count of blocks
already emitted, i.e. its own index in `doc.blocks` (so pages after a
table do not restart at a permutation of `0..n-1` over all their blocks,
and the order is per-page, not document-wide). -/
theorem C1_reading_order_amended (fresh : ℕ → String) (hash : StyleD → String)
    (pages_data_all : List PageData) (tablesOf : ℕ → List TableD)
    (page_range : Option String)
    (hnd : (pages_data_all.map (·.page_number)).Nodup) :
    (let doc := process_pdf_core fresh hash pages_data_all tablesOf page_range
     (∀ pn ∈ doc.pages.map (·.page_number),
        (doc.blocks.filter (fun b =>
            decide (b.page = pn) && !decide (b.type = "table"))).map
            (·.reading_order) =
          (List.range ((doc.blocks.filter (fun b =>
            decide (b.page = pn) && !decide (b.type = "table"))).length)).map
            (fun n => ((n : ℕ) : ℤ))) ∧
     (∀ (k : ℕ) (hk : k < doc.blocks.length),
        (doc.blocks.get ⟨k, hk⟩).type = "table" →
        (doc.blocks.get ⟨k, hk⟩).reading_order = (k : ℤ))) := by
  unfold process_pdf_core
  dsimp only
  refine assemble_reading_order _ _ _ _ _ _ _ ?_ ?_ ?_
  · cases page_range with
    | none => exact hnd
    | some pr =>
        exact hnd.sublist ((List.filter_sublist _).map _)
  · intro i d hd
    exact styled_lookup_type_ne hash _ i d hd
  · intro i
    exact styled_lookup_ro hash _ i

/-- C1 witness: a concrete single-page run satisfying the nodup
hypothesis; its text blocks carry reading orders `0..n-1` and any
table-typed block sits at its own index. -/
theorem C1_reading_order_amended_witness :
    (let doc := process_pdf_core (fun _ => "u") (fun _ => "h")
      [{ page_number := 1, width := 612, height := 792
         chars := [{ text := "A", x0 := 10, y0 := 100, x1 := 18, y1 := 112
                     fontname := "Arial", size := 12, color := "#000000" }] }]
      (fun _ => []) none
     (∀ pn ∈ doc.pages.map (·.page_number),
        (doc.blocks.filter (fun b =>
            decide (b.page = pn) && !decide (b.type = "table"))).map
            (·.reading_order) =
          (List.range ((doc.blocks.filter (fun b =>
            decide (b.page = pn) && !decide (b.type = "table"))).length)).map
            (fun n => ((n : ℕ) : ℤ))) ∧
     (∀ (k : ℕ) (hk : k < doc.blocks.length),
        (doc.blocks.get ⟨k, hk⟩).type = "table" →
        (doc.blocks.get ⟨k, hk⟩).reading_order = (k : ℤ))) :=
  C1_reading_order_amended (fun _ => "u") (fun _ => "h")
    [{ page_number := 1, width := 612, height := 792
       chars := [{ text := "A", x0 := 10, y0 := 100, x1 := 18, y1 := 112
                   fontname := "Arial", size := 12, color := "#000000" }] }]
    (fun _ => []) none (by decide)

/-! ## C1 — reading-order totality

With the tagger disabled, the heuristic pass numbers each page's text
blocks `0..n-1`; but the assembler gives a synthetic table block the
`reading_order` `len(all_blocks)` — a *document-wide* count — so on any
page after the first, a page with a table does not carry `{0..n-1}`;
and reading order restarts at `0` on each page, so it is not strictly
increasing across the document. -/

set_option maxRecDepth 8000 in
/-- C1 counterexample: two one-char pages, a detected table on page 2.
The assembled blocks carry reading orders `[0, 0, 2]`: page 2's set is
`{0, 2}` rather than `{0, 1}`, and the document-wide sequence is not
strictly increasing. -/
theorem C1_counterexample :
    (let doc := process_pdf_core (fun _ => "u") (fun _ => "h")
      [{ page_number := 1, width := 612, height := 792
         chars := [{ text := "A", x0 := 10, y0 := 100, x1 := 18, y1 := 112
                     fontname := "Arial", size := 12, color := "#000000" }] },
       { page_number := 2, width := 612, height := 792
         chars := [{ text := "B", x0 := 10, y0 := 100, x1 := 18, y1 := 112
                     fontname := "Arial", size := 12, color := "#000000" }] }]
      (fun n => if n = 2 then
        [{ id := "T", page := 2, rows := 1, cols := 1, bbox := [300, 300, 400, 400]
           cells := [{ row := 0, col := 0, row_span := some 1, col_span := some 1
                       text := some "X", bbox := [300, 300, 400, 400] }]
           block_type := "table" }] else [])
      none
     doc.blocks.map (·.reading_order) = ([0, 0, 2] : List ℤ) ∧
     (doc.blocks.filter (fun b => decide (b.page = 2))).map (·.reading_order) = [0, 2] ∧
     ¬ List.Pairwise (· < ·) (doc.blocks.map (·.reading_order)) ∧
     ((doc.blocks.filter (fun b => decide (b.page = 2))).map (·.reading_order)).toFinset ≠
       ({0, 1} : Finset ℤ)) := by
  refine ⟨by decide, by decide, by decide, by decide⟩

theorem emitBlock_pair (g g' : ℕ → String) (pn : ℕ) (pw ph : ℚ)
    (st st' : AsmState) (d d' : BlockD)
    (hst : eraseState st = eraseState st')
    (hd : eraseBlockD d = eraseBlockD d') :
    eraseState (emitBlock g pn pw ph st d) =
      eraseState (emitBlock g' pn pw ph st' d') := by
  obtain ⟨pg, bl, sp, tk, tb, ed, pv, fk⟩ := st
  obtain ⟨pg', bl', sp', tk', tb', ed', pv', fk'⟩ := st'
  obtain ⟨di, dt, dx0, dy0, dx1, dy1, dfn, dsz, dc, dw, dbt, drl, dro, drh, drf, dsi⟩ := d
  obtain ⟨di', dt', dx0', dy0', dx1', dy1', dfn', dsz', dc', dw', dbt', drl', dro',
    drh', drf', dsi'⟩ := d'
  simp only [eraseState, AsmState.mk.injEq] at hst
  obtain ⟨h1, h2, h3, h4, h5, h6, h7, h8⟩ := hst
  simp only [eraseBlockD, BlockD.mk.injEq] at hd
  obtain ⟨-, ht, hx0, hy0, hx1, hy1, hfn, hsz, hc, hw, hbt, hrl, hro, hrh, hrf, hsi⟩ := hd
  subst h1 h5 h8 ht hx0 hy0 hx1 hy1 hfn hsz hc hw hbt hrl hro hrh hrf hsi
  cases pv with
  | none =>
      cases pv' with
      | some p => simp at h7
      | none =>
          unfold emitBlock eraseState
          dsimp only
          simp only [AsmState.mk.injEq, List.map_append, List.map_map,
            List.append_nil]
          refine ⟨?_, ?_, ?_, ?_, ?_, ?_, ?_, ?_⟩ <;>
            first
              | trivial
              | (rw [h2]; done)
              | (rw [h3]; done)
              | (rw [h4]; done)
              | (rw [h6]; done)
              | (rw [h2]; rfl)
              | (rw [h3]; rfl)
              | (rw [h4]; rfl)
              | (rw [h6]; rfl)
  | some p =>
      cases pv' with
      | none => simp at h7
      | some p' =>
          unfold emitBlock eraseState
          dsimp only
          simp only [AsmState.mk.injEq, List.map_append, List.map_map]
          refine ⟨?_, ?_, ?_, ?_, ?_, ?_, ?_, ?_⟩ <;>
            first
              | trivial
              | (rw [h2]; done)
              | (rw [h3]; done)
              | (rw [h4]; done)
              | (rw [h6]; done)
              | (rw [h2]; rfl)
              | (rw [h3]; rfl)
              | (rw [h4]; rfl)
              | (rw [h6]; rfl)

theorem emitTable_pair (pn : ℕ) (pw ph : ℚ) (st st' : AsmState) (t : TableD)
    (hst : eraseState st = eraseState st') :
    eraseState (emitTable pn pw ph st t) =
      eraseState (emitTable pn pw ph st' t) := by
  obtain ⟨pg, bl, sp, tk, tb, ed, pv, fk⟩ := st
  obtain ⟨pg', bl', sp', tk', tb', ed', pv', fk'⟩ := st'
  simp only [eraseState, AsmState.mk.injEq] at hst
  obtain ⟨h1, h2, h3, h4, h5, h6, h7, h8⟩ := hst
  subst h1 h5 h8
  have hlen : bl.length = bl'.length := by
    rw [← List.length_map bl eraseBlock, h2, List.length_map]
  by_cases hb : t.bbox.isEmpty
  · unfold emitTable eraseState
    dsimp only
    rw [if_pos hb, if_pos hb]
    simp only [AsmState.mk.injEq]
    refine ⟨?_, ?_, ?_, ?_, ?_, ?_, ?_, ?_⟩ <;>
      first
        | trivial
        | exact h2
        | exact h3
        | exact h4
        | exact h6
        | exact h7
  · cases pv with
    | none =>
        cases pv' with
        | some p => simp at h7
        | none =>
            unfold emitTable eraseState
            dsimp only
            rw [if_neg hb, if_neg hb]
            dsimp only
            simp only [AsmState.mk.injEq, List.map_append, List.append_nil]
            refine ⟨?_, ?_, ?_, ?_, ?_, ?_, ?_, ?_⟩ <;>
              first
                | trivial
                | exact h3
                | exact h4
                | (rw [h2, hlen]; done)
                | (rw [h6]; done)
                | (rw [h2, hlen]; rfl)
                | (rw [h6]; rfl)
    | some p =>
        cases pv' with
        | none => simp at h7
        | some p' =>
            unfold emitTable eraseState
            dsimp only
            rw [if_neg hb, if_neg hb]
            dsimp only
            simp only [AsmState.mk.injEq, List.map_append]
            refine ⟨?_, ?_, ?_, ?_, ?_, ?_, ?_, ?_⟩ <;>
              first
                | trivial
                | exact h3
                | exact h4
                | (rw [h2, hlen]; done)
                | (rw [h6]; done)
                | (rw [h2, hlen]; rfl)
                | (rw [h6]; rfl)

theorem foldl_emitBlock_pair (g g' : ℕ → String) (pn : ℕ) (pw ph : ℚ) :
    ∀ (ds ds' : List BlockD) (st st' : AsmState),
    ds.map eraseBlockD = ds'.map eraseBlockD →
    eraseState st = eraseState st' →
    eraseState (ds.foldl (emitBlock g pn pw ph) st) =
      eraseState (ds'.foldl (emitBlock g' pn pw ph) st') := by
  intro ds
  induction ds with
  | nil =>
      intro ds' st st' h hst
      cases ds' with
      | nil => exact hst
      | cons d' t' => simp at h
  | cons d t ih =>
      intro ds' st st' h hst
      cases ds' with
      | nil => simp at h
      | cons d' t' =>
          simp only [List.map_cons, List.cons.injEq] at h
          obtain ⟨h1, h2⟩ := h
          rw [List.foldl_cons, List.foldl_cons]
          exact ih t' _ _ h2 (emitBlock_pair g g' pn pw ph st st' d d' hst h1)

theorem foldl_emitTable_pair (pn : ℕ) (pw ph : ℚ) (ts : List TableD) :
    ∀ (st st' : AsmState), eraseState st = eraseState st' →
    eraseState (ts.foldl (emitTable pn pw ph) st) =
      eraseState (ts.foldl (emitTable pn pw ph) st') := by
  induction ts with
  | nil => intro st st' hst; exact hst
  | cons t ts ih =>
      intro st st' hst
      rw [List.foldl_cons, List.foldl_cons]
      exact ih _ _ (emitTable_pair pn pw ph st st' t hst)

theorem orderedInsert_ro_map_erase (b : BlockD) :
    ∀ (l : List BlockD),
    (l.orderedInsert (fun a c => a.reading_order.getD 0 ≤ c.reading_order.getD 0) b).map
        eraseBlockD =
      (l.map eraseBlockD).orderedInsert
        (fun a c => a.reading_order.getD 0 ≤ c.reading_order.getD 0) (eraseBlockD b) := by
  intro l
  induction l with
  | nil => rfl
  | cons c cs ih =>
      rw [List.orderedInsert, List.map_cons, List.orderedInsert]
      by_cases h : b.reading_order.getD 0 ≤ c.reading_order.getD 0
      · have h2 : (eraseBlockD b).reading_order.getD 0 ≤
            (eraseBlockD c).reading_order.getD 0 := h
        rw [if_pos h, if_pos h2, List.map_cons, List.map_cons]
      · have h2 : ¬ ((eraseBlockD b).reading_order.getD 0 ≤
            (eraseBlockD c).reading_order.getD 0) := h
        rw [if_neg h, if_neg h2, List.map_cons, ih]

theorem pySortByZ_ro_map_erase :
    ∀ (l : List BlockD),
    (pySortByZ (fun b => b.reading_order.getD 0) l).map eraseBlockD =
      pySortByZ (fun b => b.reading_order.getD 0) (l.map eraseBlockD) := by
  intro l
  induction l with
  | nil => rfl
  | cons b t ih =>
      unfold pySortByZ at *
      rw [List.map_cons, List.insertionSort, List.insertionSort,
        orderedInsert_ro_map_erase, ih]

theorem processPage_pair (g g' : ℕ → String) (mb mb' : ℤ → List BlockD)
    (tb : ℤ → List TableD)
    (hmb : ∀ i, (mb i).map eraseBlockD = (mb' i).map eraseBlockD) :
    ∀ (st st' : AsmState) (pd : PageData), eraseState st = eraseState st' →
    eraseState (processPage g mb tb st pd) =
      eraseState (processPage g' mb' tb st' pd) := by
  intro st st' pd hst
  unfold processPage
  dsimp only
  apply foldl_emitTable_pair
  apply foldl_emitBlock_pair
  · rw [pySortByZ_ro_map_erase, pySortByZ_ro_map_erase, hmb]
  · obtain ⟨pg, bl, sp, tk, tb2, ed, pv, fk⟩ := st
    obtain ⟨pg', bl', sp', tk', tb2', ed', pv', fk'⟩ := st'
    simp only [eraseState, AsmState.mk.injEq] at hst ⊢
    obtain ⟨h1, h2, h3, h4, h5, h6, h7, h8⟩ := hst
    refine ⟨?_, ?_, ?_, ?_, ?_, ?_, ?_, ?_⟩ <;>
      first
        | trivial
        | (rw [h1])
        | exact h2
        | exact h3
        | exact h4
        | exact h5
        | exact h6
        | exact h7
        | exact h8

theorem pages_fold_pair (g g' : ℕ → String) (mb mb' : ℤ → List BlockD)
    (tb : ℤ → List TableD)
    (hmb : ∀ i, (mb i).map eraseBlockD = (mb' i).map eraseBlockD)
    (ps : List PageData) :
    ∀ (st st' : AsmState), eraseState st = eraseState st' →
    eraseState (ps.foldl (processPage g mb tb) st) =
      eraseState (ps.foldl (processPage g' mb' tb) st') := by
  induction ps with
  | nil => intro st st' hst; exact hst
  | cons p ps ih =>
      intro st st' hst
      rw [List.foldl_cons, List.foldl_cons]
      exact ih _ _ (processPage_pair g g' mb mb' tb hmb st st' p hst)

theorem isEmpty_congr_of_length {α β : Type} (l : List α) (l' : List β)
    (h : l.length = l'.length) : l.isEmpty = l'.isEmpty := by
  cases l with
  | nil =>
      cases l' with
      | nil => rfl
      | cons b t' => simp at h
  | cons a t =>
      cases l' with
      | nil => simp at h
      | cons b t' => rfl

theorem optListPair {α : Type} (F : List α → List α) (l l' : List α)
    (hF : F l = F l') (hlen : l.length = l'.length) :
    (if l.isEmpty then none else some l).map F =
    (if l'.isEmpty then none else some l').map F := by
  by_cases hE : l.isEmpty = true
  · rw [if_pos hE, if_pos (by rw [← isEmpty_congr_of_length l l' hlen]; exact hE)]
  · rw [if_neg hE, if_neg (by rw [← isEmpty_congr_of_length l l' hlen]; exact hE)]
    simp only [Option.map_some']
    rw [hF]

theorem assemble_document_erase (f f' : ℕ → String) (did did' : String)
    (pages_data : List PageData) (mb mb' : ℤ → List BlockD)
    (tb : ℤ → List TableD) (styles : List (String × StyleD)) (src : String)
    (hmb : ∀ i, (mb i).map eraseBlockD = (mb' i).map eraseBlockD) :
    eraseDoc (assemble_document f did pages_data mb tb styles src) =
      eraseDoc (assemble_document f' did' pages_data mb' tb styles src) := by
  have hpair := pages_fold_pair f f' mb mb' tb hmb pages_data
    ⟨[], [], [], [], [], [], none, 0⟩ ⟨[], [], [], [], [], [], none, 0⟩ rfl
  have hall_blocks0 := congrArg AsmState.all_blocks hpair
  have hall_spans0 := congrArg AsmState.all_spans hpair
  have hall_tokens0 := congrArg AsmState.all_tokens hpair
  have hall_edges0 := congrArg AsmState.all_edges hpair
  have hpg0 := congrArg AsmState.pages hpair
  have hpg : (pages_data.foldl (processPage f mb tb)
        ⟨[], [], [], [], [], [], none, 0⟩).pages =
      (pages_data.foldl (processPage f' mb' tb)
        ⟨[], [], [], [], [], [], none, 0⟩).pages := hpg0
  have hbl : (pages_data.foldl (processPage f mb tb)
        ⟨[], [], [], [], [], [], none, 0⟩).all_blocks.map eraseBlock =
      (pages_data.foldl (processPage f' mb' tb)
        ⟨[], [], [], [], [], [], none, 0⟩).all_blocks.map eraseBlock := hall_blocks0
  have hsp : (pages_data.foldl (processPage f mb tb)
        ⟨[], [], [], [], [], [], none, 0⟩).all_spans.map eraseSpan =
      (pages_data.foldl (processPage f' mb' tb)
        ⟨[], [], [], [], [], [], none, 0⟩).all_spans.map eraseSpan := hall_spans0
  have htk : (pages_data.foldl (processPage f mb tb)
        ⟨[], [], [], [], [], [], none, 0⟩).all_tokens.map eraseToken =
      (pages_data.foldl (processPage f' mb' tb)
        ⟨[], [], [], [], [], [], none, 0⟩).all_tokens.map eraseToken := hall_tokens0
  have htb0 := congrArg AsmState.all_tables hpair
  have htb : (pages_data.foldl (processPage f mb tb)
        ⟨[], [], [], [], [], [], none, 0⟩).all_tables =
      (pages_data.foldl (processPage f' mb' tb)
        ⟨[], [], [], [], [], [], none, 0⟩).all_tables := htb0
  have hed : (pages_data.foldl (processPage f mb tb)
        ⟨[], [], [], [], [], [], none, 0⟩).all_edges.map eraseEdge =
      (pages_data.foldl (processPage f' mb' tb)
        ⟨[], [], [], [], [], [], none, 0⟩).all_edges.map eraseEdge := hall_edges0
  have hspl : (pages_data.foldl (processPage f mb tb)
        ⟨[], [], [], [], [], [], none, 0⟩).all_spans.length =
      (pages_data.foldl (processPage f' mb' tb)
        ⟨[], [], [], [], [], [], none, 0⟩).all_spans.length := by
    rw [← List.length_map _ eraseSpan, hsp, List.length_map]
  have htkl : (pages_data.foldl (processPage f mb tb)
        ⟨[], [], [], [], [], [], none, 0⟩).all_tokens.length =
      (pages_data.foldl (processPage f' mb' tb)
        ⟨[], [], [], [], [], [], none, 0⟩).all_tokens.length := by
    rw [← List.length_map _ eraseToken, htk, List.length_map]
  have hedl : (pages_data.foldl (processPage f mb tb)
        ⟨[], [], [], [], [], [], none, 0⟩).all_edges.length =
      (pages_data.foldl (processPage f' mb' tb)
        ⟨[], [], [], [], [], [], none, 0⟩).all_edges.length := by
    rw [← List.length_map _ eraseEdge, hed, List.length_map]
  unfold assemble_document eraseDoc
  dsimp only
  simp only [LayoutDocument.mk.injEq, DocumentMeta.mk.injEq]
  refine ⟨?_, ?_, ?_, ?_, ?_, ?_, ?_, ?_⟩ <;>
    first
      | trivial
      | exact hpg
      | exact hbl
      | exact optListPair (List.map eraseSpan) _ _ hsp hspl
      | exact optListPair (List.map eraseToken) _ _ htk htkl
      | exact optListPair (List.map eraseEdge) _ _ hed hedl
      | (rw [htb]; done)
      | (rw [htb])
      | (refine ⟨?_, ?_, ?_, ?_⟩ <;> first | trivial | (rw [hpg]))

theorem classify_map_erase (v : List BlockD) :
    classifyHeuristic (v.map eraseBlockD) = (classifyHeuristic v).map eraseBlockD := by
  unfold classifyHeuristic
  rw [List.enum_map, List.map_map, List.map_map]
  rfl

theorem classify_assign_erase_congr (hash : StyleD → String) (w w' : List BlockD)
    (h : w.map eraseBlockD = w'.map eraseBlockD) :
    ((classifyHeuristic w).map (assignStyle hash)).map eraseBlockD =
      ((classifyHeuristic w').map (assignStyle hash)).map eraseBlockD := by
  have e : ∀ (v : List BlockD),
      ((classifyHeuristic v).map (assignStyle hash)).map eraseBlockD =
        (classifyHeuristic (v.map eraseBlockD)).map (assignStyle hash) := by
    intro v
    rw [classify_map_erase, List.map_map, List.map_map]
    rfl
  rw [e, e, h]

theorem styled_lookup_pair (hash : StyleD → String)
    (A B : List (ℤ × List BlockD)) (i : ℤ)
    (h : A.map (fun pb => (pb.1, pb.2.map eraseBlockD)) =
      B.map (fun pb => (pb.1, pb.2.map eraseBlockD))) :
    ((((A.map (fun pb => (pb.1, classifyHeuristic pb.2))).map
        (fun pb => (pb.1, pb.2.map (assignStyle hash)))).lookup i).getD []).map
        eraseBlockD =
    ((((B.map (fun pb => (pb.1, classifyHeuristic pb.2))).map
        (fun pb => (pb.1, pb.2.map (assignStyle hash)))).lookup i).getD []).map
        eraseBlockD := by
  have hAB : (A.lookup i).map (fun w => w.map eraseBlockD) =
      (B.lookup i).map (fun w => w.map eraseBlockD) := by
    rw [← lookup_map_snd, ← lookup_map_snd, h]
  rw [lookup_map_snd, lookup_map_snd, lookup_map_snd, lookup_map_snd]
  cases hA : A.lookup i with
  | none =>
      cases hB : B.lookup i with
      | none => rfl
      | some w => rw [hA, hB] at hAB; simp at hAB
  | some w =>
      cases hB : B.lookup i with
      | none => rw [hA, hB] at hAB; simp at hAB
      | some w' =>
          rw [hA, hB] at hAB
          simp only [Option.map_some', Option.some.injEq] at hAB
          simp only [Option.map_some'] at hAB ⊢
          simp only [Option.getD_some]
          exact classify_assign_erase_congr hash w w' hAB

theorem nsStep_snd_congr (hash : StyleD → String) (a1 a1' : List BlockD)
    (a2 : List (String × StyleD)) (b b' : BlockD)
    (h : eraseBlockD b = eraseBlockD b') :
    (nsStep hash (a1, a2) b).2 = (nsStep hash (a1', a2) b').2 := by
  have hs : styleOf b = styleOf b' := by
    have e1 : styleOf (eraseBlockD b) = styleOf (eraseBlockD b') := by rw [h]
    exact e1
  unfold nsStep
  dsimp only
  rw [hs]

theorem ns_snd_pair (hash : StyleD → String) :
    ∀ (l l' : List BlockD), l.map eraseBlockD = l'.map eraseBlockD →
    ∀ (a1 a1' : List BlockD) (a2 : List (String × StyleD)),
    (l.foldl (nsStep hash) (a1, a2)).2 = (l'.foldl (nsStep hash) (a1', a2)).2 := by
  intro l
  induction l with
  | nil =>
      intro l' h a1 a1' a2
      cases l' with
      | nil => rfl
      | cons b' t' => simp at h
  | cons b t ih =>
      intro l' h a1 a1' a2
      cases l' with
      | nil => simp at h
      | cons b' t' =>
          simp only [List.map_cons, List.cons.injEq] at h
          obtain ⟨h1, h2⟩ := h
          rw [List.foldl_cons, List.foldl_cons,
            show nsStep hash (a1, a2) b =
              ((nsStep hash (a1, a2) b).1, (nsStep hash (a1, a2) b).2) from rfl,
            show nsStep hash (a1', a2) b' =
              ((nsStep hash (a1', a2) b').1, (nsStep hash (a1', a2) b').2) from rfl,
            nsStep_snd_congr hash a1 a1' a2 b b' h1]
          exact ih t' h2 _ _ _

theorem flat_erase (A : List (ℤ × List BlockD)) :
    (((A.map (fun pb => (pb.1, classifyHeuristic pb.2))).map Prod.snd).flatten).map
        eraseBlockD =
      (((A.map (fun pb => (pb.1, pb.2.map eraseBlockD))).map
        (fun pb => (pb.1, classifyHeuristic pb.2))).map Prod.snd).flatten := by
  rw [List.map_map, List.map_map, List.map_map, List.map_flatten, List.map_map]
  have e : ∀ pb ∈ A,
      (List.map eraseBlockD ∘ (Prod.snd ∘ fun pb => (pb.1, classifyHeuristic pb.2))) pb =
      ((Prod.snd ∘ fun pb => (pb.1, classifyHeuristic pb.2)) ∘
        fun pb => (pb.1, pb.2.map eraseBlockD)) pb := by
    intro pb _
    dsimp only [Function.comp]
    rw [classify_map_erase]
  rw [List.map_congr_left e]

theorem geo_fold_pair (g g' : ℕ → String) (tablesOf : ℕ → List TableD)
    (ps : List PageData) :
    ∀ (acc acc' : List (ℤ × List BlockD) × List (ℤ × List TableD) × ℕ),
    acc.1.map (fun pb => (pb.1, pb.2.map eraseBlockD)) =
      acc'.1.map (fun pb => (pb.1, pb.2.map eraseBlockD)) →
    acc.2.1 = acc'.2.1 → acc.2.2 = acc'.2.2 →
    ((ps.foldl (geoStep g tablesOf) acc).1.map
        (fun pb => (pb.1, pb.2.map eraseBlockD)) =
      (ps.foldl (geoStep g' tablesOf) acc').1.map
        (fun pb => (pb.1, pb.2.map eraseBlockD))) ∧
    (ps.foldl (geoStep g tablesOf) acc).2.1 =
      (ps.foldl (geoStep g' tablesOf) acc').2.1 ∧
    (ps.foldl (geoStep g tablesOf) acc).2.2 =
      (ps.foldl (geoStep g' tablesOf) acc').2.2 := by
  induction ps with
  | nil => intro acc acc' h1 h2 h3; exact ⟨h1, h2, h3⟩
  | cons p ps ih =>
      intro acc acc' h1 h2 h3
      rw [List.foldl_cons, List.foldl_cons]
      have hbb : (build_blocks g acc'.2.2
            (build_lines (build_words p.chars))).1.map eraseBlockD =
          (build_blocks g' acc'.2.2
            (build_lines (build_words p.chars))).1.map eraseBlockD := by
        unfold build_blocks
        dsimp only
        rw [List.map_map, List.map_map]
        rfl
      have hded : ∀ (u : List BlockD) (ts : List TableD),
          (deduplicate_blocks_from_tables u ts).map eraseBlockD =
          deduplicate_blocks_from_tables (u.map eraseBlockD) ts := by
        intro u ts
        unfold deduplicate_blocks_from_tables
        by_cases hE : ts.isEmpty = true
        · rw [if_pos hE, if_pos hE]
        · rw [if_neg hE, if_neg hE, List.filter_map]
          rfl
      apply ih
      · unfold geoStep
        dsimp only
        rw [List.map_append, List.map_append, h1, h3,
          List.map_cons, List.map_cons, List.map_nil]
        dsimp only
        rw [hded, hded, hbb]
      · unfold geoStep
        dsimp only
        rw [h2]
      · unfold geoStep
        dsimp only
        rw [h3]
        rfl


theorem pdf_body_pair (g g' : ℕ → String) (hash : StyleD → String)
    (P : List PageData) (tablesOf : ℕ → List TableD) (did did' : String) :
    eraseDoc (assemble_document
      (fun n => g ((P.foldl (geoStep g tablesOf)
        (([], [], 1) : List (ℤ × List BlockD) × List (ℤ × List TableD) × ℕ)).2.2 + n))
      did P
      (fun i => ((((P.foldl (geoStep g tablesOf)
          (([], [], 1) : List (ℤ × List BlockD) × List (ℤ × List TableD) × ℕ)).1.map
            (fun pb => (pb.1, classifyHeuristic pb.2))).map
            (fun pb => (pb.1, pb.2.map (assignStyle hash)))).lookup i).getD [])
      (fun i => (((P.foldl (geoStep g tablesOf)
          (([], [], 1) : List (ℤ × List BlockD) × List (ℤ × List TableD) × ℕ)).2.1).lookup
            i).getD [])
      ((normalize_styles hash ((((P.foldl (geoStep g tablesOf)
          (([], [], 1) : List (ℤ × List BlockD) × List (ℤ × List TableD) × ℕ)).1.map
            (fun pb => (pb.1, classifyHeuristic pb.2))).map Prod.snd).flatten)).2)
      "pdf") =
    eraseDoc (assemble_document
      (fun n => g' ((P.foldl (geoStep g' tablesOf)
        (([], [], 1) : List (ℤ × List BlockD) × List (ℤ × List TableD) × ℕ)).2.2 + n))
      did' P
      (fun i => ((((P.foldl (geoStep g' tablesOf)
          (([], [], 1) : List (ℤ × List BlockD) × List (ℤ × List TableD) × ℕ)).1.map
            (fun pb => (pb.1, classifyHeuristic pb.2))).map
            (fun pb => (pb.1, pb.2.map (assignStyle hash)))).lookup i).getD [])
      (fun i => (((P.foldl (geoStep g' tablesOf)
          (([], [], 1) : List (ℤ × List BlockD) × List (ℤ × List TableD) × ℕ)).2.1).lookup
            i).getD [])
      ((normalize_styles hash ((((P.foldl (geoStep g' tablesOf)
          (([], [], 1) : List (ℤ × List BlockD) × List (ℤ × List TableD) × ℕ)).1.map
            (fun pb => (pb.1, classifyHeuristic pb.2))).map Prod.snd).flatten)).2)
      "pdf") := by
  obtain ⟨hg1, hg2, hg3⟩ := geo_fold_pair g g' tablesOf P
    (([], [], 1) : List (ℤ × List BlockD) × List (ℤ × List TableD) × ℕ)
    (([], [], 1) : List (ℤ × List BlockD) × List (ℤ × List TableD) × ℕ) rfl rfl rfl
  have hflat : ((((P.foldl (geoStep g tablesOf)
        (([], [], 1) : List (ℤ × List BlockD) × List (ℤ × List TableD) × ℕ)).1.map
          (fun pb => (pb.1, classifyHeuristic pb.2))).map Prod.snd).flatten).map
          eraseBlockD =
      ((((P.foldl (geoStep g' tablesOf)
        (([], [], 1) : List (ℤ × List BlockD) × List (ℤ × List TableD) × ℕ)).1.map
          (fun pb => (pb.1, classifyHeuristic pb.2))).map Prod.snd).flatten).map
          eraseBlockD := by
    rw [flat_erase, hg1, ← flat_erase]
  have hsty : (normalize_styles hash ((((P.foldl (geoStep g tablesOf)
        (([], [], 1) : List (ℤ × List BlockD) × List (ℤ × List TableD) × ℕ)).1.map
          (fun pb => (pb.1, classifyHeuristic pb.2))).map Prod.snd).flatten)).2 =
      (normalize_styles hash ((((P.foldl (geoStep g' tablesOf)
        (([], [], 1) : List (ℤ × List BlockD) × List (ℤ × List TableD) × ℕ)).1.map
          (fun pb => (pb.1, classifyHeuristic pb.2))).map Prod.snd).flatten)).2 := by
    unfold normalize_styles
    exact ns_snd_pair hash _ _ hflat [] [] []
  have htbf : (fun i : ℤ => (((P.foldl (geoStep g tablesOf)
        (([], [], 1) : List (ℤ × List BlockD) × List (ℤ × List TableD) × ℕ)).2.1).lookup
          i).getD []) =
      (fun i : ℤ => (((P.foldl (geoStep g' tablesOf)
        (([], [], 1) : List (ℤ × List BlockD) × List (ℤ × List TableD) × ℕ)).2.1).lookup
          i).getD []) := by
    funext i
    rw [hg2]
  rw [hsty, htbf]
  exact assemble_document_erase _ _ did did' P _ _ _ _ "pdf"
    (fun i => styled_lookup_pair hash _ _ i hg1)

/-- C7 counterexample: the pipeline's output depends on the `uuid4`
draw stream — two runs whose draws differ (modelled by two supplies)
give different documents already on empty input, via `document_id`. -/
theorem C7_counterexample :
    process_pdf_core (fun _ => "a") (fun _ => "h") [] (fun _ => []) none ≠
      process_pdf_core (fun _ => "b") (fun _ => "h") [] (fun _ => []) none := by
  decide

/-- C7 (amended): a `use_vision=False` run is deterministic up to the
`uuid4` draws: for any two supplies (two runs on the same input), the
assembled documents agree exactly after erasing the uuid-derived
strings (document id, block ids, span ids, the `block_id`/`span_id`
references and the reading-graph endpoints); every other byte of the
output, including page geometry, text, tables, styles and all
orderings, is identical. -/
theorem C7_determinism_amended (g g' : ℕ → String) (hash : StyleD → String)
    (pages_data_all : List PageData) (tablesOf : ℕ → List TableD)
    (page_range : Option String) :
    eraseDoc (process_pdf_core g hash pages_data_all tablesOf page_range) =
      eraseDoc (process_pdf_core g' hash pages_data_all tablesOf page_range) := by
  unfold process_pdf_core
  dsimp only
  exact pdf_body_pair g g' hash _ tablesOf (g 0) (g' 0)

end FastVision
